import Mathlib

/-!
Verification development for the Leaf MCP proxy (`src/server.js`, plus the
secondary single-file variant shipped alongside it).  The program wraps the
Leaf REST API as MCP tools: each tool builds an upstream URL from a path
template and query parameters, resolves a bearer token, and returns the
upstream response body normalised to canonical JSON text when it parses.

Shallow embedding conventions:
* JS strings are modelled as `List Char` (with `String` wrappers at the
  statement level where convenient).
* `JSON.parse`/`JSON.stringify` are modelled by an executable recursive
  descent parser and serializer over an explicit `Json` value type.  Two
  deliberate modelling simplifications, neither visible to any claim:
  numbers keep their surface lexeme (decomposed into sign/integer/fraction/
  exponent parts) instead of being converted to IEEE doubles, and string
  escapes `\uXXXX` denoting lone UTF-16 surrogates are rejected (Lean `Char`
  holds Unicode scalar values only; JS would accept them).
* `fetch` is modelled by a `Request` value describing the outgoing call and
  an `Upstream` value describing its outcome; the dispatcher is a total
  function from these to `Except`.
-/

namespace LeafMCP

/- ──────────────── character helpers ──────────────── -/

/-- The double-quote character, written via its code point so that the file
contains no string-delimiter literals. -/
def dq : Char := Char.ofNat 34

/-- The backslash character. -/
def bsl : Char := Char.ofNat 92

/-- Opening curly brace. -/
def lbrace : Char := Char.ofNat 123

/-- Closing curly brace. -/
def rbrace : Char := Char.ofNat 125

/-- JSON insignificant whitespace (space, tab, line feed, carriage return),
exactly the set accepted between tokens by `JSON.parse`. -/
def isJsonWs (c : Char) : Bool :=
  decide (c.toNat = 32 ∨ c.toNat = 9 ∨ c.toNat = 10 ∨ c.toNat = 13)

/-- ASCII decimal digit test. -/
def isDigitB (c : Char) : Bool := decide (48 ≤ c.toNat ∧ c.toNat ≤ 57)

/-- Drop leading JSON whitespace. -/
def skipWs : List Char → List Char
  | [] => []
  | c :: r => if isJsonWs c then skipWs r else c :: r

/-- Consume an expected literal run of characters. -/
def expect : List Char → List Char → Option (List Char)
  | [], cs => some cs
  | _ :: _, [] => none
  | p :: ps, c :: cs => if c = p then expect ps cs else none

/-- Hexadecimal digit value, accepting both cases as `JSON.parse` does. -/
def hexVal (c : Char) : Option Nat :=
  if 48 ≤ c.toNat ∧ c.toNat ≤ 57 then some (c.toNat - 48)
  else if 97 ≤ c.toNat ∧ c.toNat ≤ 102 then some (c.toNat - 87)
  else if 65 ≤ c.toNat ∧ c.toNat ≤ 70 then some (c.toNat - 55)
  else none

/-- Combine four hex digits into a code unit. -/
def hex4 (a b c d : Char) : Option Nat :=
  match hexVal a, hexVal b, hexVal c, hexVal d with
  | some x, some y, some z, some w => some (((x * 16 + y) * 16 + z) * 16 + w)
  | _, _, _, _ => none

/-- Lower-case hexadecimal digit character for a nibble, as produced by
`JSON.stringify` when it emits a `\u00XX` escape. -/
def hexDig (n : Nat) : Char := if n < 10 then Char.ofNat (48 + n) else Char.ofNat (87 + n)

/- ──────────────── JSON data model ──────────────── -/

/-- The surface decomposition of a JSON number lexeme: optional minus sign,
integer digits, optional fraction digits, optional exponent (marker letter,
optional sign character, digits).  The numeric value is never materialised:
the model keeps the exact lexeme, a faithful abstraction for every claim
below (none inspects numeric values). -/
structure NumParts where
  neg : Bool
  ip : List Char
  fr : Option (List Char)
  ex : Option (Char × Option Char × List Char)
deriving DecidableEq

/-- JSON values as produced by the modelled `JSON.parse`: object members
keep insertion order, as JS objects do. -/
inductive Json where
  | null
  | bool (b : Bool)
  | num (p : NumParts)
  | str (s : List Char)
  | arr (elems : List Json)
  | obj (members : List (List Char × Json))

/- ──────────────── number lexer (JSON.parse grammar) ──────────────── -/

/-- Longest run of leading decimal digits. -/
def takeDigits : List Char → List Char × List Char
  | [] => ([], [])
  | c :: r =>
    if isDigitB c then
      let t := takeDigits r
      (c :: t.1, t.2)
    else ([], c :: r)

/-- Integer part: `0`, or a nonzero digit followed by digits (leading zeros
are rejected, as in strict JSON). -/
def lexIntPart : List Char → Option (List Char × List Char)
  | [] => none
  | c :: r =>
    if c = '0' then some (['0'], r)
    else if isDigitB c then
      let t := takeDigits r
      some (c :: t.1, t.2)
    else none

/-- Optional fraction: a dot must be followed by at least one digit. -/
def lexFrac : List Char → Option (Option (List Char) × List Char)
  | [] => some (none, [])
  | c :: r =>
    if c = '.' then
      match takeDigits r with
      | ([], _) => none
      | (d :: ds, rest) => some (some (d :: ds), rest)
    else some (none, c :: r)

/-- Optional exponent: `e`/`E`, optional sign, then at least one digit. -/
def lexExp : List Char → Option (Option (Char × Option Char × List Char) × List Char)
  | [] => some (none, [])
  | c :: r =>
    if c = 'e' ∨ c = 'E' then
      match r with
      | [] => none
      | s :: r₁ =>
        if s = '+' ∨ s = '-' then
          match takeDigits r₁ with
          | ([], _) => none
          | (d :: ds, rest) => some (some (c, some s, d :: ds), rest)
        else
          match takeDigits (s :: r₁) with
          | ([], _) => none
          | (d :: ds, rest) => some (some (c, none, d :: ds), rest)
    else some (none, c :: r)

/-- Fraction and exponent after the integer part of a number. -/
def lexTail (neg : Bool) (ip : List Char) (cs : List Char) : Option (NumParts × List Char) :=
  match lexFrac cs with
  | none => none
  | some (fr, r₂) =>
    match lexExp r₂ with
    | none => none
    | some (ex, r₃) => some (⟨neg, ip, fr, ex⟩, r₃)

/-- Lex a complete JSON number starting at the head of the input. -/
def lexNumber (cs : List Char) : Option (NumParts × List Char) :=
  match cs with
  | [] => none
  | c :: r =>
    if c = '-' then
      match lexIntPart r with
      | none => none
      | some (ip, r₁) => lexTail true ip r₁
    else
      match lexIntPart (c :: r) with
      | none => none
      | some (ip, r₁) => lexTail false ip r₁

/-- Render the fraction part of a number lexeme. -/
def renderFr : Option (List Char) → List Char
  | some ds => '.' :: ds
  | none => []

/-- Render the exponent part of a number lexeme. -/
def renderEx : Option (Char × Option Char × List Char) → List Char
  | some (m, some s, ds) => m :: s :: ds
  | some (m, none, ds) => m :: ds
  | none => []

/-- Render a number lexeme back to characters. -/
def renderNum (p : NumParts) : List Char :=
  (if p.neg then ['-'] else []) ++ p.ip ++ renderFr p.fr ++ renderEx p.ex

/- ──────────────── string body parser ──────────────── -/

/-- Decoded character of a single-letter escape sequence accepted by
`JSON.parse` (`\u` is handled separately). -/
def escCode (e : Char) : Option Char :=
  if e = dq then some dq
  else if e = bsl then some bsl
  else if e = '/' then some '/'
  else if e = 'b' then some (Char.ofNat 8)
  else if e = 'f' then some (Char.ofNat 12)
  else if e = 'n' then some (Char.ofNat 10)
  else if e = 'r' then some (Char.ofNat 13)
  else if e = 't' then some (Char.ofNat 9)
  else none

/-- Parse the body of a JSON string (the opening quote already consumed),
returning the decoded characters and the input after the closing quote.
Accepts the escape set of `JSON.parse`; a surrogate pair of `\u` escapes
combines into one scalar value, and an unpaired surrogate escape fails
(modelling deviation noted at the top of the file). -/
def parseStringBody : Nat → List Char → Option (List Char × List Char)
  | 0, _ => none
  | f + 1, cs =>
    match cs with
    | [] => none
    | c :: r =>
      if c = dq then some ([], r)
      else if c = bsl then
        match r with
        | [] => none
        | e :: r₁ =>
          match escCode e with
          | some ch => (parseStringBody f r₁).map (fun p => (ch :: p.1, p.2))
          | none =>
            if e = 'u' then
              match r₁ with
              | h1 :: h2 :: h3 :: h4 :: r₂ =>
                match hex4 h1 h2 h3 h4 with
                | none => none
                | some n =>
                  if 55296 ≤ n ∧ n ≤ 56319 then
                    match r₂ with
                    | e2 :: u2 :: g1 :: g2 :: g3 :: g4 :: r₃ =>
                      if e2 = bsl ∧ u2 = 'u' then
                        match hex4 g1 g2 g3 g4 with
                        | none => none
                        | some m =>
                          if 56320 ≤ m ∧ m ≤ 57343 then
                            (parseStringBody f r₃).map
                              (fun p => (Char.ofNat (65536 + (n - 55296) * 1024 + (m - 56320)) :: p.1, p.2))
                          else none
                      else none
                    | _ => none
                  else if 56320 ≤ n ∧ n ≤ 57343 then none
                  else (parseStringBody f r₂).map (fun p => (Char.ofNat n :: p.1, p.2))
              | _ => none
            else none
      else if c.toNat < 32 then none
      else (parseStringBody f r).map (fun p => (c :: p.1, p.2))

/- ──────────────── duplicate-key collapse (JS object semantics) ──────────────── -/

/-- Value of the last occurrence of key `k` in a member list. -/
def lastVal (k : List Char) : List (List Char × Json) → Option Json
  | [] => none
  | q :: r =>
    match lastVal k r with
    | some w => some w
    | none => if q.1 = k then some q.2 else none

/-- Collapse duplicate object keys the way JS property assignment does:
a key keeps its first position, its value is the last one assigned.
`seen` accumulates keys already emitted. -/
def dedupA (seen : List (List Char)) : List (List Char × Json) → List (List Char × Json)
  | [] => []
  | q :: r =>
    if q.1 ∈ seen then dedupA seen r
    else (q.1, (lastVal q.1 r).getD q.2) :: dedupA (q.1 :: seen) r

/-- Duplicate-key collapse starting from no seen keys. -/
def dedup (l : List (List Char × Json)) : List (List Char × Json) := dedupA [] l

/- ──────────────── value parser ──────────────── -/

mutual

/-- Parse one JSON value (fuelled recursive descent, modelling
`JSON.parse`). -/
def parseValue : Nat → List Char → Option (Json × List Char)
  | 0, _ => none
  | f + 1, cs =>
    match skipWs cs with
    | [] => none
    | c :: r =>
      if c = 'n' then (expect ['u', 'l', 'l'] r).map (fun r' => (Json.null, r'))
      else if c = 't' then (expect ['r', 'u', 'e'] r).map (fun r' => (Json.bool true, r'))
      else if c = 'f' then (expect ['a', 'l', 's', 'e'] r).map (fun r' => (Json.bool false, r'))
      else if c = dq then (parseStringBody f r).map (fun p => (Json.str p.1, p.2))
      else if c = '[' then
        match skipWs r with
        | [] => none
        | c' :: r' =>
          if c' = ']' then some (Json.arr [], r')
          else (parseElems f (c' :: r')).map (fun p => (Json.arr p.1, p.2))
      else if c = lbrace then
        match skipWs r with
        | [] => none
        | c' :: r' =>
          if c' = rbrace then some (Json.obj [], r')
          else (parseMembers f (c' :: r')).map (fun p => (Json.obj (dedup p.1), p.2))
      else (lexNumber (c :: r)).map (fun p => (Json.num p.1, p.2))

/-- Parse a nonempty comma-separated element list up to the closing
bracket. -/
def parseElems : Nat → List Char → Option (List Json × List Char)
  | 0, _ => none
  | f + 1, cs =>
    match parseValue f cs with
    | none => none
    | some (v, r) =>
      match skipWs r with
      | [] => none
      | c :: r' =>
        if c = ',' then (parseElems f r').map (fun p => (v :: p.1, p.2))
        else if c = ']' then some ([v], r')
        else none

/-- Parse a nonempty comma-separated member list up to the closing brace. -/
def parseMembers : Nat → List Char → Option (List (List Char × Json) × List Char)
  | 0, _ => none
  | f + 1, cs =>
    match skipWs cs with
    | [] => none
    | c :: r =>
      if c = dq then
        match parseStringBody f r with
        | none => none
        | some (k, r₁) =>
          match skipWs r₁ with
          | [] => none
          | c₂ :: r₂ =>
            if c₂ = ':' then
              match parseValue f r₂ with
              | none => none
              | some (v, r₃) =>
                match skipWs r₃ with
                | [] => none
                | c₄ :: r₄ =>
                  if c₄ = ',' then (parseMembers f r₄).map (fun p => ((k, v) :: p.1, p.2))
                  else if c₄ = rbrace then some ([(k, v)], r₄)
                  else none
            else none
      else none

end

/-- Model of `JSON.parse(txt)`: parse one value, then require only
whitespace to remain.  Returns `none` exactly where `JSON.parse` throws. -/
def parseJson (cs : List Char) : Option Json :=
  match parseValue (cs.length + 1) cs with
  | some (v, rest) => if skipWs rest = [] then some v else none
  | none => none

/- ──────────────── serializer (JSON.stringify) ──────────────── -/

/-- The short escape letter `JSON.stringify` uses for a character, when one
exists (the quote, the backslash, and the five control characters with
one-letter escapes). -/
def shortEsc (c : Char) : Option Char :=
  if c = dq then some dq
  else if c = bsl then some bsl
  else if c.toNat = 8 then some 'b'
  else if c.toNat = 9 then some 't'
  else if c.toNat = 10 then some 'n'
  else if c.toNat = 12 then some 'f'
  else if c.toNat = 13 then some 'r'
  else none

/-- Escape one character the way `JSON.stringify` quotes string contents. -/
def escChar (c : Char) : List Char :=
  match shortEsc c with
  | some e => [bsl, e]
  | none =>
    if c.toNat < 32 then [bsl, 'u', '0', '0', hexDig (c.toNat / 16), hexDig (c.toNat % 16)]
    else [c]

/-- Escape a whole string body. -/
def escList : List Char → List Char
  | [] => []
  | c :: r => escChar c ++ escList r

mutual

/-- Model of `JSON.stringify` on parsed values (no pretty-printing, members
in insertion order). -/
def ser : Json → List Char
  | Json.null => ['n', 'u', 'l', 'l']
  | Json.bool true => ['t', 'r', 'u', 'e']
  | Json.bool false => ['f', 'a', 'l', 's', 'e']
  | Json.num p => renderNum p
  | Json.str s => dq :: escList s ++ [dq]
  | Json.arr xs => '[' :: serElems xs ++ [']']
  | Json.obj ms => lbrace :: serMembers ms ++ [rbrace]

/-- Serialize array elements, comma separated. -/
def serElems : List Json → List Char
  | [] => []
  | [x] => ser x
  | x :: y :: ys => ser x ++ ',' :: serElems (y :: ys)

/-- Serialize object members, comma separated. -/
def serMembers : List (List Char × Json) → List Char
  | [] => []
  | [q] => dq :: escList q.1 ++ dq :: ':' :: ser q.2
  | q :: m :: ms => (dq :: escList q.1 ++ dq :: ':' :: ser q.2) ++ ',' :: serMembers (m :: ms)

end

/-- The response normaliser of `src/server.js` (`_get` / `_bodyReq` tails):
`try return JSON.stringify(JSON.parse(txt)) catch return txt`. -/
def normalizeL (cs : List Char) : List Char :=
  match parseJson cs with
  | some v => ser v
  | none => cs

/-- String-level wrapper of the response normaliser. -/
def normalize (s : String) : String := ⟨normalizeL s.data⟩

/- ──────────────── basic lemmas ──────────────── -/

theorem expect_append (p t : List Char) : expect p (p ++ t) = some t := by
  induction p with
  | nil => rfl
  | cons c ps ih => simp [expect, ih]

theorem skipWs_cons {c : Char} (h : isJsonWs c = false) (l : List Char) :
    skipWs (c :: l) = c :: l := by
  simp [skipWs, h]

/-- A run of decimal digits. -/
def DigitRun (ds : List Char) : Prop := ∀ c ∈ ds, isDigitB c = true

/-- A character list whose head (if any) is not a digit. -/
def NoDigitHead : List Char → Prop
  | [] => True
  | c :: _ => isDigitB c = false

theorem takeDigits_digits : ∀ cs : List Char, DigitRun (takeDigits cs).1 := by
  intro cs
  induction cs with
  | nil => intro c hc; simp [takeDigits] at hc
  | cons c r ih =>
    intro x hx
    by_cases h : isDigitB c = true
    · simp only [takeDigits, h, if_true, List.mem_cons] at hx
      rcases hx with rfl | hx
      · exact h
      · exact ih x hx
    · simp only [takeDigits, h, if_false] at hx
      simp at hx

theorem takeDigits_append {ds t : List Char} (hds : DigitRun ds) (ht : NoDigitHead t) :
    takeDigits (ds ++ t) = (ds, t) := by
  induction ds with
  | nil =>
    simp only [List.nil_append]
    cases t with
    | nil => rfl
    | cons c r =>
      have hc : isDigitB c = false := ht
      simp [takeDigits, hc]
  | cons d ds ih =>
    have hd : isDigitB d = true := hds d (by simp)
    have hrest : DigitRun ds := fun c hc => hds c (by simp [hc])
    simp [takeDigits, hd, ih hrest]

theorem digit_toNat {c : Char} (h : isDigitB c = true) : 48 ≤ c.toNat ∧ c.toNat ≤ 57 := by
  simpa [isDigitB] using h

theorem digit_ne {c d : Char} (h : isDigitB c = true) (hd : isDigitB d = false) : c ≠ d := by
  intro he
  rw [he, hd] at h
  cases h

theorem digit_not_ws {c : Char} (h : isDigitB c = true) : isJsonWs c = false := by
  have hb := digit_toNat h
  simp only [isJsonWs, decide_eq_false_iff_not]
  omega

/- ──────────────── number lexeme well-formedness ──────────────── -/

/-- Shape invariant of number lexemes produced by the lexer: exactly the
surface grammar of strict JSON numbers. -/
def NumWF (p : NumParts) : Prop :=
  (p.ip = ['0'] ∨ ∃ d ds, p.ip = d :: ds ∧ isDigitB d = true ∧ d ≠ '0' ∧ DigitRun ds) ∧
  (∀ ds, p.fr = some ds → ds ≠ [] ∧ DigitRun ds) ∧
  (∀ m s ds, p.ex = some (m, s, ds) →
    (m = 'e' ∨ m = 'E') ∧ (s = none ∨ s = some '+' ∨ s = some '-') ∧ ds ≠ [] ∧ DigitRun ds)

theorem lexIntPart_wf {cs ip r} (h : lexIntPart cs = some (ip, r)) :
    ip = ['0'] ∨ ∃ d ds, ip = d :: ds ∧ isDigitB d = true ∧ d ≠ '0' ∧ DigitRun ds := by
  cases cs with
  | nil => simp [lexIntPart] at h
  | cons c cr =>
    simp only [lexIntPart] at h
    split_ifs at h with h0 hd
    · simp only [Option.some.injEq, Prod.mk.injEq] at h
      left
      exact h.1.symm
    · simp only [Option.some.injEq, Prod.mk.injEq] at h
      right
      exact ⟨c, (takeDigits cr).1, h.1.symm, hd, h0, takeDigits_digits cr⟩

theorem lexFrac_wf {cs fr r} (h : lexFrac cs = some (fr, r)) :
    ∀ ds, fr = some ds → ds ≠ [] ∧ DigitRun ds := by
  cases cs with
  | nil =>
    simp only [lexFrac, Option.some.injEq, Prod.mk.injEq] at h
    intro ds hds
    rw [← h.1] at hds
    cases hds
  | cons c cr =>
    by_cases hdot : c = '.'
    · rcases htd : takeDigits cr with ⟨ds', rest'⟩
      cases ds' with
      | nil => simp [lexFrac, hdot, htd] at h
      | cons d ds'' =>
        simp only [lexFrac, hdot, if_true, if_pos trivial, htd, Option.some.injEq,
          Prod.mk.injEq, eq_self_iff_true] at h
        intro ds hds
        rw [← h.1] at hds
        injection hds with hds
        subst hds
        refine ⟨by simp, ?_⟩
        have hdig := takeDigits_digits cr
        rw [htd] at hdig
        exact hdig
    · simp only [lexFrac, if_neg hdot, Option.some.injEq, Prod.mk.injEq] at h
      intro ds hds
      rw [← h.1] at hds
      cases hds

theorem lexExp_wf {cs ex r} (h : lexExp cs = some (ex, r)) :
    ∀ m s ds, ex = some (m, s, ds) →
      (m = 'e' ∨ m = 'E') ∧ (s = none ∨ s = some '+' ∨ s = some '-') ∧ ds ≠ [] ∧ DigitRun ds := by
  cases cs with
  | nil =>
    simp only [lexExp, Option.some.injEq, Prod.mk.injEq] at h
    intro m s ds hds
    rw [← h.1] at hds
    cases hds
  | cons c cr =>
    by_cases he : c = 'e' ∨ c = 'E'
    · cases cr with
      | nil => simp [lexExp, he] at h
      | cons s₀ cr₁ =>
        by_cases hs : s₀ = '+' ∨ s₀ = '-'
        · rcases htd : takeDigits cr₁ with ⟨ds', rest'⟩
          cases ds' with
          | nil => simp [lexExp, he, hs, htd] at h
          | cons d ds'' =>
            simp only [lexExp, if_pos he, if_pos hs, htd, Option.some.injEq,
              Prod.mk.injEq] at h
            intro m s ds hds
            rw [← h.1] at hds
            simp only [Option.some.injEq, Prod.mk.injEq] at hds
            obtain ⟨rfl, rfl, rfl⟩ := hds
            refine ⟨he, ?_, by simp, ?_⟩
            · rcases hs with rfl | rfl
              · right; left; rfl
              · right; right; rfl
            · have hdig := takeDigits_digits cr₁
              rw [htd] at hdig
              exact hdig
        · rcases htd : takeDigits (s₀ :: cr₁) with ⟨ds', rest'⟩
          cases ds' with
          | nil => simp [lexExp, he, hs, htd] at h
          | cons d ds'' =>
            simp only [lexExp, if_pos he, if_neg hs, htd, Option.some.injEq,
              Prod.mk.injEq] at h
            intro m s ds hds
            rw [← h.1] at hds
            simp only [Option.some.injEq, Prod.mk.injEq] at hds
            obtain ⟨rfl, rfl, rfl⟩ := hds
            refine ⟨he, Or.inl rfl, by simp, ?_⟩
            have hdig := takeDigits_digits (s₀ :: cr₁)
            rw [htd] at hdig
            exact hdig
    · simp only [lexExp, if_neg he, Option.some.injEq, Prod.mk.injEq] at h
      intro m s ds hds
      rw [← h.1] at hds
      cases hds

theorem lexTail_wf {neg ip cs p r} (h : lexTail neg ip cs = some (p, r))
    (hip : ip = ['0'] ∨ ∃ d ds, ip = d :: ds ∧ isDigitB d = true ∧ d ≠ '0' ∧ DigitRun ds) :
    NumWF p := by
  rcases h₂ : lexFrac cs with _ | ⟨fr, r₂⟩
  · simp [lexTail, h₂] at h
  · rcases h₃ : lexExp r₂ with _ | ⟨ex, r₃⟩
    · simp [lexTail, h₂, h₃] at h
    · simp only [lexTail, h₂, h₃, Option.some.injEq, Prod.mk.injEq] at h
      rw [← h.1]
      exact ⟨hip, lexFrac_wf h₂, lexExp_wf h₃⟩

theorem lexNumber_wf {cs p r} (h : lexNumber cs = some (p, r)) : NumWF p := by
  cases cs with
  | nil => cases h
  | cons c cr =>
    by_cases hneg : c = '-'
    · rcases h₁ : lexIntPart cr with _ | ⟨ip, r₁⟩
      · simp [lexNumber, hneg, h₁] at h
      · rw [show lexNumber (c :: cr) = lexTail true ip r₁ by
          simp [lexNumber, hneg, h₁]] at h
        exact lexTail_wf h (lexIntPart_wf h₁)
    · rcases h₁ : lexIntPart (c :: cr) with _ | ⟨ip, r₁⟩
      · simp [lexNumber, hneg, h₁] at h
      · rw [show lexNumber (c :: cr) = lexTail false ip r₁ by
          simp [lexNumber, hneg, h₁]] at h
        exact lexTail_wf h (lexIntPart_wf h₁)

/- ──────────────── number lexeme round trip ──────────────── -/

/-- Tail admissible after a rendered number: nothing that could extend the
lexeme. -/
def NumTail : List Char → Prop
  | [] => True
  | c :: _ => isDigitB c = false ∧ c ≠ '.' ∧ c ≠ 'e' ∧ c ≠ 'E'

/-- Tail admissible after an integer-or-fraction position: head is neither a
digit nor a dot. -/
def FracTail : List Char → Prop
  | [] => True
  | c :: _ => isDigitB c = false ∧ c ≠ '.'

theorem numTail_noDigit {t : List Char} (ht : NumTail t) : NoDigitHead t := by
  cases t with
  | nil => trivial
  | cons c r => exact ht.1

theorem numTail_fracTail {t : List Char} (ht : NumTail t) : FracTail t := by
  cases t with
  | nil => trivial
  | cons c r => exact ⟨ht.1, ht.2.1⟩

theorem lexIntPart_rt {ip t : List Char}
    (hip : ip = ['0'] ∨ ∃ d ds, ip = d :: ds ∧ isDigitB d = true ∧ d ≠ '0' ∧ DigitRun ds)
    (ht : NoDigitHead t) :
    lexIntPart (ip ++ t) = some (ip, t) := by
  rcases hip with rfl | ⟨d, ds, rfl, hd, hd0, hds⟩
  · simp [lexIntPart]
  · simp [lexIntPart, hd0, hd, takeDigits_append hds ht]

theorem lexFrac_rt_some {ds t : List Char} (hne : ds ≠ []) (hds : DigitRun ds)
    (ht : NoDigitHead t) :
    lexFrac ('.' :: (ds ++ t)) = some (some ds, t) := by
  cases ds with
  | nil => cases hne rfl
  | cons d ds' =>
    have htd : takeDigits (d :: (ds' ++ t)) = (d :: ds', t) := by
      simpa using takeDigits_append hds ht
    simp [lexFrac, htd]

theorem lexFrac_rt {fr : Option (List Char)} {u : List Char}
    (hfr : ∀ ds, fr = some ds → ds ≠ [] ∧ DigitRun ds) (hu : FracTail u) :
    lexFrac (renderFr fr ++ u) = some (fr, u) := by
  cases fr with
  | none =>
    cases u with
    | nil => rfl
    | cons c r => simp [renderFr, lexFrac, hu.2]
  | some ds =>
    obtain ⟨hne, hds⟩ := hfr ds rfl
    have hnd : NoDigitHead u := by
      cases u with
      | nil => trivial
      | cons c r => exact hu.1
    simpa [renderFr] using lexFrac_rt_some hne hds hnd

theorem lexExp_rt_sign {m s₀ : Char} {ds t : List Char}
    (hm : m = 'e' ∨ m = 'E') (hs : s₀ = '+' ∨ s₀ = '-') (hne : ds ≠ [])
    (hds : DigitRun ds) (ht : NoDigitHead t) :
    lexExp (m :: s₀ :: (ds ++ t)) = some (some (m, some s₀, ds), t) := by
  cases ds with
  | nil => cases hne rfl
  | cons d ds' =>
    have htd : takeDigits (d :: (ds' ++ t)) = (d :: ds', t) := by
      simpa using takeDigits_append hds ht
    simp [lexExp, hm, hs, htd]

theorem lexExp_rt_nosign {m : Char} {ds t : List Char}
    (hm : m = 'e' ∨ m = 'E') (hne : ds ≠ []) (hds : DigitRun ds) (ht : NoDigitHead t) :
    lexExp (m :: (ds ++ t)) = some (some (m, none, ds), t) := by
  cases ds with
  | nil => cases hne rfl
  | cons d ds' =>
    have hd : isDigitB d = true := hds d (by simp)
    have hsn : ¬(d = '+' ∨ d = '-') := by
      rintro (rfl | rfl) <;> exact absurd hd (by decide)
    have htd : takeDigits (d :: (ds' ++ t)) = (d :: ds', t) := by
      simpa using takeDigits_append hds ht
    simp [lexExp, hm, hsn, htd]

theorem lexExp_rt {ex : Option (Char × Option Char × List Char)} {t : List Char}
    (hex : ∀ m s ds, ex = some (m, s, ds) →
      (m = 'e' ∨ m = 'E') ∧ (s = none ∨ s = some '+' ∨ s = some '-') ∧ ds ≠ [] ∧ DigitRun ds)
    (ht : NumTail t) :
    lexExp (renderEx ex ++ t) = some (ex, t) := by
  cases ex with
  | none =>
    cases t with
    | nil => rfl
    | cons c r =>
      have : ¬(c = 'e' ∨ c = 'E') := by
        rintro (rfl | rfl)
        · exact ht.2.2.1 rfl
        · exact ht.2.2.2 rfl
      simp [renderEx, lexExp, this]
  | some q =>
    obtain ⟨m, s, ds⟩ := q
    obtain ⟨hm, hs, hne, hds⟩ := hex m s ds rfl
    cases s with
    | none => simpa [renderEx] using lexExp_rt_nosign hm hne hds (numTail_noDigit ht)
    | some s₀ =>
      rcases hs with hs | hs | hs
      · cases hs
      · injection hs with hs
        subst hs
        simpa [renderEx] using lexExp_rt_sign hm (Or.inl rfl) hne hds (numTail_noDigit ht)
      · injection hs with hs
        subst hs
        simpa [renderEx] using lexExp_rt_sign hm (Or.inr rfl) hne hds (numTail_noDigit ht)

theorem fracTail_exRender {ex : Option (Char × Option Char × List Char)} {t : List Char}
    (hex : ∀ m s ds, ex = some (m, s, ds) →
      (m = 'e' ∨ m = 'E') ∧ (s = none ∨ s = some '+' ∨ s = some '-') ∧ ds ≠ [] ∧ DigitRun ds)
    (ht : NumTail t) :
    FracTail (renderEx ex ++ t) := by
  cases ex with
  | none => exact numTail_fracTail ht
  | some q =>
    obtain ⟨m, s, ds⟩ := q
    obtain ⟨hm, -, -, -⟩ := hex m s ds rfl
    rcases hm with rfl | rfl <;> cases s <;>
      exact ⟨by decide, by decide⟩

theorem noDigit_frExRender {fr : Option (List Char)}
    {ex : Option (Char × Option Char × List Char)} {t : List Char}
    (hex : ∀ m s ds, ex = some (m, s, ds) →
      (m = 'e' ∨ m = 'E') ∧ (s = none ∨ s = some '+' ∨ s = some '-') ∧ ds ≠ [] ∧ DigitRun ds)
    (ht : NumTail t) :
    NoDigitHead (renderFr fr ++ (renderEx ex ++ t)) := by
  cases fr with
  | some ds => exact (by decide : isDigitB '.' = false)
  | none =>
    have h := fracTail_exRender hex ht
    cases hre : renderEx ex ++ t with
    | nil => trivial
    | cons c r =>
      rw [hre] at h
      exact h.1

theorem lexTail_rt {neg : Bool} {ip : List Char} {fr : Option (List Char)}
    {ex : Option (Char × Option Char × List Char)} {t : List Char}
    (hfr : ∀ ds, fr = some ds → ds ≠ [] ∧ DigitRun ds)
    (hex : ∀ m s ds, ex = some (m, s, ds) →
      (m = 'e' ∨ m = 'E') ∧ (s = none ∨ s = some '+' ∨ s = some '-') ∧ ds ≠ [] ∧ DigitRun ds)
    (ht : NumTail t) :
    lexTail neg ip (renderFr fr ++ (renderEx ex ++ t)) = some (⟨neg, ip, fr, ex⟩, t) := by
  have h₁ : lexFrac (renderFr fr ++ (renderEx ex ++ t)) = some (fr, renderEx ex ++ t) :=
    lexFrac_rt hfr (fracTail_exRender hex ht)
  have h₂ : lexExp (renderEx ex ++ t) = some (ex, t) := lexExp_rt hex ht
  simp [lexTail, h₁, h₂]

theorem lexNumber_rt {p : NumParts} {t : List Char} (hp : NumWF p) (ht : NumTail t) :
    lexNumber (renderNum p ++ t) = some (p, t) := by
  obtain ⟨neg, ip, fr, ex⟩ := p
  obtain ⟨hip, hfr, hex⟩ := hp
  dsimp only at hip hfr hex
  have hint : lexIntPart (ip ++ (renderFr fr ++ (renderEx ex ++ t))) =
      some (ip, renderFr fr ++ (renderEx ex ++ t)) :=
    lexIntPart_rt hip (noDigit_frExRender hex ht)
  have htail := @lexTail_rt neg ip fr ex t hfr hex ht
  cases neg with
  | true =>
    have : renderNum ⟨true, ip, fr, ex⟩ ++ t =
        '-' :: (ip ++ (renderFr fr ++ (renderEx ex ++ t))) := by
      simp [renderNum, List.append_assoc]
    rw [this]
    simp [lexNumber, hint, htail]
  | false =>
    have hr : renderNum ⟨false, ip, fr, ex⟩ ++ t =
        ip ++ (renderFr fr ++ (renderEx ex ++ t)) := by
      simp [renderNum, List.append_assoc]
    rw [hr]
    rcases hip with hip0 | ⟨d, ds, hdds, hd, _, _⟩
    · rw [hip0]
      rw [hip0] at hint htail
      simp only [List.cons_append, List.nil_append] at hint
      simp [lexNumber, hint, htail]
    · rw [hdds]
      rw [hdds] at hint htail
      have hdm : ¬(d = '-') := digit_ne hd (by decide)
      simp only [List.cons_append] at hint
      simp [lexNumber, hdm, hint, htail]

/- ──────────────── string body round trip ──────────────── -/

theorem escCode_shortEsc {c e : Char} (h : shortEsc c = some e) : escCode e = some c := by
  unfold shortEsc at h
  split_ifs at h with h1 h2 h3 h4 h5 h6 h7 <;> injection h with h' <;> subst h'
  · rw [h1]; decide
  · rw [h2]; decide
  · rw [show escCode 'b' = some (Char.ofNat 8) from by decide, ← h3, Char.ofNat_toNat]
  · rw [show escCode 't' = some (Char.ofNat 9) from by decide, ← h4, Char.ofNat_toNat]
  · rw [show escCode 'n' = some (Char.ofNat 10) from by decide, ← h5, Char.ofNat_toNat]
  · rw [show escCode 'f' = some (Char.ofNat 12) from by decide, ← h6, Char.ofNat_toNat]
  · rw [show escCode 'r' = some (Char.ofNat 13) from by decide, ← h7, Char.ofNat_toNat]

theorem shortEsc_none {c : Char} (h : shortEsc c = none) : c ≠ dq ∧ c ≠ bsl := by
  unfold shortEsc at h
  split_ifs at h with h1 h2
  exact ⟨h1, h2⟩

theorem hexVal_hexDig : ∀ n, n < 16 → hexVal (hexDig n) = some n := by decide

theorem hex4_enc {c : Char} (h : c.toNat < 32) :
    hex4 '0' '0' (hexDig (c.toNat / 16)) (hexDig (c.toNat % 16)) = some c.toNat := by
  have d1 : c.toNat / 16 < 16 := by omega
  have d2 : c.toNat % 16 < 16 := Nat.mod_lt _ (by omega)
  have e1 := hexVal_hexDig _ d1
  have e2 := hexVal_hexDig _ d2
  simp only [hex4, e1, e2, show hexVal '0' = some 0 from by decide, Option.some.injEq]
  omega

theorem parseStringBody_rt :
    ∀ (s : List Char) (f : Nat) (rest : List Char), s.length + 1 ≤ f →
      parseStringBody f (escList s ++ (dq :: rest)) = some (s, rest) := by
  intro s
  induction s with
  | nil =>
    intro f rest hf
    cases f with
    | zero => omega
    | succ f => simp [escList, parseStringBody]
  | cons c s ih =>
    intro f rest hf
    cases f with
    | zero => omega
    | succ f =>
      have hf' : s.length + 1 ≤ f := by
        simp only [List.length_cons] at hf
        omega
      have hih := ih f rest hf'
      rcases hse : shortEsc c with _ | e
      · obtain ⟨hcd, hcb⟩ := shortEsc_none hse
        by_cases hc32 : c.toNat < 32
        · have hch : escChar c =
              [bsl, 'u', '0', '0', hexDig (c.toNat / 16), hexDig (c.toNat % 16)] := by
            simp [escChar, hse, hc32]
          have hhex := hex4_enc hc32
          have hs1 : ¬(55296 ≤ c.toNat ∧ c.toNat ≤ 56319) := by omega
          have hs2 : ¬(56320 ≤ c.toNat ∧ c.toNat ≤ 57343) := by omega
          simp [escList, hch, parseStringBody,
            show ¬(bsl = dq) from by decide,
            show escCode 'u' = none from by decide,
            hhex, hs1, hs2, Char.ofNat_toNat, hih]
        · have hch : escChar c = [c] := by simp [escChar, hse, hc32]
          simp [escList, hch, parseStringBody, hcd, hcb, hc32, hih]
      · have hch : escChar c = [bsl, e] := by simp [escChar, hse]
        have hec := escCode_shortEsc hse
        simp [escList, hch, parseStringBody,
          show ¬(bsl = dq) from by decide, hec, hih]

/- ──────────────── well-formedness of parsed values ──────────────── -/

mutual

/-- Values in the image of the parser: number lexemes are grammatical and
object keys are pairwise distinct. -/
def WFj : Json → Prop
  | Json.null => True
  | Json.bool _ => True
  | Json.num p => NumWF p
  | Json.str _ => True
  | Json.arr xs => WFe xs
  | Json.obj ms => (ms.map Prod.fst).Nodup ∧ WFm ms

/-- All elements of an array well formed. -/
def WFe : List Json → Prop
  | [] => True
  | x :: xs => WFj x ∧ WFe xs

/-- All member values of an object well formed. -/
def WFm : List (List Char × Json) → Prop
  | [] => True
  | q :: ms => WFj q.2 ∧ WFm ms

end

theorem WFm_iff {ms : List (List Char × Json)} : WFm ms ↔ ∀ q ∈ ms, WFj q.2 := by
  induction ms with
  | nil => simp [WFm]
  | cons q r ih =>
    simp only [WFm, ih, List.mem_cons]
    constructor
    · rintro ⟨h1, h2⟩ p (rfl | hp)
      · exact h1
      · exact h2 p hp
    · intro h
      exact ⟨h q (Or.inl rfl), fun p hp => h p (Or.inr hp)⟩

/- ──────────────── dedup lemmas ──────────────── -/

theorem lastVal_mem {k : List Char} {l : List (List Char × Json)} {v : Json}
    (h : lastVal k l = some v) : (k, v) ∈ l := by
  induction l with
  | nil => cases h
  | cons q r ih =>
    simp only [lastVal] at h
    rcases hlv : lastVal k r with _ | w
    · rw [hlv] at h
      split_ifs at h with hk
      · injection h with h'
        have hq : q = (k, v) := by
          rcases q with ⟨a, b⟩
          simp only [Prod.mk.injEq]
          exact ⟨hk, h'⟩
        rw [← hq]
        exact List.mem_cons_self q r
    · rw [hlv] at h
      injection h with h'
      subst h'
      exact List.mem_cons_of_mem _ (ih hlv)

theorem lastVal_none {k : List Char} {l : List (List Char × Json)}
    (h : k ∉ l.map Prod.fst) : lastVal k l = none := by
  induction l with
  | nil => rfl
  | cons q r ih =>
    simp only [List.map_cons, List.mem_cons] at h
    push_neg at h
    simp only [lastVal, ih h.2]
    exact if_neg (fun hh => h.1 hh.symm)

theorem dedupA_sub {l : List (List Char × Json)} :
    ∀ seen q, q ∈ dedupA seen l → ∃ q' ∈ l, q'.1 = q.1 ∧ q'.2 = q.2 := by
  induction l with
  | nil =>
    intro seen q h
    cases h
  | cons p r ih =>
    intro seen q h
    simp only [dedupA] at h
    split_ifs at h with hseen
    · obtain ⟨q', hq', he⟩ := ih seen q h
      exact ⟨q', List.mem_cons_of_mem _ hq', he⟩
    · rcases List.mem_cons.mp h with rfl | h
      · rcases hlv : lastVal p.1 r with _ | w
        · refine ⟨p, List.mem_cons_self p r, rfl, ?_⟩
          simp [hlv]
        · refine ⟨(p.1, w), List.mem_cons_of_mem _ (lastVal_mem hlv), rfl, ?_⟩
          simp [hlv]
      · obtain ⟨q', hq', he⟩ := ih _ q h
        exact ⟨q', List.mem_cons_of_mem _ hq', he⟩

theorem dedupA_nodup {l : List (List Char × Json)} :
    ∀ seen, ((dedupA seen l).map Prod.fst).Nodup ∧
      ∀ k ∈ (dedupA seen l).map Prod.fst, k ∉ seen := by
  induction l with
  | nil =>
    intro seen
    exact ⟨List.nodup_nil, by simp [dedupA]⟩
  | cons p r ih =>
    intro seen
    simp only [dedupA]
    split_ifs with hseen
    · exact ih seen
    · obtain ⟨hnd, hnin⟩ := ih (p.1 :: seen)
      refine ⟨?_, ?_⟩
      · simp only [List.map_cons, List.nodup_cons]
        refine ⟨fun hmem => (hnin _ hmem) (by simp), hnd⟩
      · intro k hk
        simp only [List.map_cons, List.mem_cons] at hk
        rcases hk with rfl | hk
        · exact hseen
        · intro hkseen
          exact (hnin k hk) (by simp [hkseen])

theorem dedupA_eq_self {l : List (List Char × Json)} :
    ∀ seen, (∀ q ∈ l, q.1 ∉ seen) → (l.map Prod.fst).Nodup → dedupA seen l = l := by
  induction l with
  | nil =>
    intro seen _ _
    rfl
  | cons p r ih =>
    intro seen hseen hnd
    simp only [List.map_cons, List.nodup_cons] at hnd
    have h1 : p.1 ∉ seen := hseen p (List.mem_cons_self p r)
    have hlv : lastVal p.1 r = none := lastVal_none hnd.1
    simp only [dedupA, if_neg h1, hlv, Option.getD_none]
    have hrest : ∀ q ∈ r, q.1 ∉ p.1 :: seen := by
      intro q hq
      simp only [List.mem_cons]
      push_neg
      refine ⟨?_, hseen q (List.mem_cons_of_mem _ hq)⟩
      intro he
      exact hnd.1 (he ▸ List.mem_map_of_mem Prod.fst hq)
    rw [ih (p.1 :: seen) hrest hnd.2]

theorem dedup_nodup (l : List (List Char × Json)) :
    ((dedup l).map Prod.fst).Nodup := (dedupA_nodup []).1

theorem dedup_sub {l : List (List Char × Json)} {q} (h : q ∈ dedup l) :
    ∃ q' ∈ l, q'.1 = q.1 ∧ q'.2 = q.2 := dedupA_sub [] q h

theorem dedup_eq_self {l : List (List Char × Json)} (h : (l.map Prod.fst).Nodup) :
    dedup l = l := dedupA_eq_self [] (by simp) h

/- ──────────────── serializer shape lemmas ──────────────── -/

/-- Characters that can start a serialized JSON value. -/
def HeadCh (c : Char) : Prop :=
  c = 'n' ∨ c = 't' ∨ c = 'f' ∨ c = dq ∨ c = '[' ∨ c = lbrace ∨ c = '-' ∨ isDigitB c = true

theorem headCh_not_ws {c : Char} (h : HeadCh c) : isJsonWs c = false := by
  rcases h with rfl | rfl | rfl | rfl | rfl | rfl | rfl | hd
  · decide
  · decide
  · decide
  · decide
  · decide
  · decide
  · decide
  · exact digit_not_ws hd

theorem headCh_ne_delims {c : Char} (h : HeadCh c) : ¬(c = ']') ∧ ¬(c = rbrace) := by
  rcases h with rfl | rfl | rfl | rfl | rfl | rfl | rfl | hd
  · exact ⟨by decide, by decide⟩
  · exact ⟨by decide, by decide⟩
  · exact ⟨by decide, by decide⟩
  · exact ⟨by decide, by decide⟩
  · exact ⟨by decide, by decide⟩
  · exact ⟨by decide, by decide⟩
  · exact ⟨by decide, by decide⟩
  · exact ⟨digit_ne hd (by decide), digit_ne hd (by decide)⟩

theorem renderNum_head {p : NumParts} (hp : NumWF p) :
    ∃ c t, renderNum p = c :: t ∧ (c = '-' ∨ isDigitB c = true) := by
  obtain ⟨neg, ip, fr, ex⟩ := p
  obtain ⟨hip, -, -⟩ := hp
  dsimp only at hip
  cases neg with
  | true =>
    refine ⟨'-', ip ++ renderFr fr ++ renderEx ex, ?_, Or.inl rfl⟩
    simp [renderNum, List.append_assoc]
  | false =>
    rcases hip with rfl | ⟨d, ds, rfl, hd, -, -⟩
    · refine ⟨'0', renderFr fr ++ renderEx ex, ?_, Or.inr (by decide)⟩
      simp [renderNum, List.append_assoc]
    · refine ⟨d, ds ++ renderFr fr ++ renderEx ex, ?_, Or.inr hd⟩
      simp [renderNum, List.append_assoc]

theorem ser_head {v : Json} (h : WFj v) : ∃ c t, ser v = c :: t ∧ HeadCh c := by
  cases v with
  | null => exact ⟨'n', _, rfl, Or.inl rfl⟩
  | bool b =>
    cases b with
    | true => exact ⟨'t', _, rfl, Or.inr (Or.inl rfl)⟩
    | false => exact ⟨'f', _, rfl, Or.inr (Or.inr (Or.inl rfl))⟩
  | num p =>
    have hw : NumWF p := by simpa [WFj] using h
    obtain ⟨c, t, hr, hc⟩ := renderNum_head hw
    refine ⟨c, t, by simp [ser, hr], ?_⟩
    rcases hc with rfl | hd
    · exact Or.inr (Or.inr (Or.inr (Or.inr (Or.inr (Or.inr (Or.inl rfl))))))
    · exact Or.inr (Or.inr (Or.inr (Or.inr (Or.inr (Or.inr (Or.inr hd))))))
  | str s =>
    exact ⟨dq, escList s ++ [dq], by simp [ser],
      Or.inr (Or.inr (Or.inr (Or.inl rfl)))⟩
  | arr xs =>
    exact ⟨'[', serElems xs ++ [']'], by simp [ser],
      Or.inr (Or.inr (Or.inr (Or.inr (Or.inl rfl))))⟩
  | obj ms =>
    exact ⟨lbrace, serMembers ms ++ [rbrace], by simp [ser],
      Or.inr (Or.inr (Or.inr (Or.inr (Or.inr (Or.inl rfl)))))⟩

theorem serElems_head {xs : List Json} (hne : xs ≠ []) (h : WFe xs) :
    ∃ c t, serElems xs = c :: t ∧ HeadCh c := by
  cases xs with
  | nil => cases hne rfl
  | cons x xs' =>
    have hx : WFj x := by
      have := h
      simp only [WFe] at this
      exact this.1
    obtain ⟨c, t, hs, hc⟩ := ser_head hx
    cases xs' with
    | nil => exact ⟨c, t, by simpa [serElems] using hs, hc⟩
    | cons y ys =>
      exact ⟨c, t ++ ',' :: serElems (y :: ys), by simp [serElems, hs], hc⟩

theorem serMembers_head {ms : List (List Char × Json)} (hne : ms ≠ []) :
    ∃ t, serMembers ms = dq :: t := by
  cases ms with
  | nil => cases hne rfl
  | cons q ms' =>
    cases ms' with
    | nil => exact ⟨escList q.1 ++ dq :: ':' :: ser q.2, by simp [serMembers]⟩
    | cons m ms'' =>
      exact ⟨escList q.1 ++ dq :: ':' :: ser q.2 ++ ',' :: serMembers (m :: ms''),
        by simp [serMembers]⟩

theorem escChar_len (c : Char) : 1 ≤ (escChar c).length := by
  unfold escChar
  rcases shortEsc c with _ | e
  · by_cases h : c.toNat < 32 <;> simp [h]
  · simp

theorem escList_len (s : List Char) : s.length ≤ (escList s).length := by
  induction s with
  | nil => simp [escList]
  | cons c r ih =>
    simp only [escList, List.length_cons, List.length_append]
    have := escChar_len c
    omega

/- ──────────────── admissible tails ──────────────── -/

/-- Characters that may legitimately follow a serialized value inside a
larger serialization. -/
def TailOk : List Char → Prop
  | [] => True
  | c :: _ => c = ',' ∨ c = ']' ∨ c = rbrace

theorem tailOk_numTail {t : List Char} (ht : TailOk t) : NumTail t := by
  cases t with
  | nil => trivial
  | cons c r =>
    rcases ht with rfl | rfl | rfl
    · exact ⟨by decide, by decide, by decide, by decide⟩
    · exact ⟨by decide, by decide, by decide, by decide⟩
    · exact ⟨by decide, by decide, by decide, by decide⟩

/- ──────────────── parser / serializer round trip ──────────────── -/

theorem parseSer : ∀ f : Nat,
    (∀ v rest, WFj v → (ser v).length ≤ f → TailOk rest →
      parseValue f (ser v ++ rest) = some (v, rest)) ∧
    (∀ xs rest, xs ≠ [] → WFe xs → (serElems xs).length + 1 ≤ f → TailOk rest →
      parseElems f (serElems xs ++ ']' :: rest) = some (xs, rest)) ∧
    (∀ ms rest, ms ≠ [] → WFm ms → (serMembers ms).length + 1 ≤ f → TailOk rest →
      parseMembers f (serMembers ms ++ rbrace :: rest) = some (ms, rest)) := by
  intro f
  induction f with
  | zero =>
    refine ⟨?_, ?_, ?_⟩
    · intro v rest hwf hlen _
      obtain ⟨c, t, hs, -⟩ := ser_head hwf
      rw [hs] at hlen
      simp at hlen
    · intro xs rest _ _ hlen _
      omega
    · intro ms rest _ _ hlen _
      omega
  | succ f ih =>
    obtain ⟨ihv, ihe, ihm⟩ := ih
    refine ⟨?_, ?_, ?_⟩
    · intro v rest hwf hlen hrest
      cases v with
      | null =>
        have hexp : expect ['u', 'l', 'l'] ('u' :: 'l' :: 'l' :: rest) = some rest :=
          expect_append ['u', 'l', 'l'] rest
        simp [ser, parseValue, skipWs_cons (show isJsonWs 'n' = false from by decide), hexp]
      | bool b =>
        cases b with
        | true =>
          have hexp : expect ['r', 'u', 'e'] ('r' :: 'u' :: 'e' :: rest) = some rest :=
            expect_append ['r', 'u', 'e'] rest
          simp [ser, parseValue, skipWs_cons (show isJsonWs 't' = false from by decide),
            show ¬('t' = 'n') from by decide, hexp]
        | false =>
          have hexp : expect ['a', 'l', 's', 'e'] ('a' :: 'l' :: 's' :: 'e' :: rest) = some rest :=
            expect_append ['a', 'l', 's', 'e'] rest
          simp [ser, parseValue, skipWs_cons (show isJsonWs 'f' = false from by decide),
            show ¬('f' = 'n') from by decide, show ¬('f' = 't') from by decide, hexp]
      | num p =>
        have hw : NumWF p := hwf
        have hlex := lexNumber_rt hw (tailOk_numTail hrest)
        obtain ⟨c, t, hr, hc⟩ := renderNum_head hw
        have hch : HeadCh c := by
          rcases hc with rfl | hd
          · exact Or.inr (Or.inr (Or.inr (Or.inr (Or.inr (Or.inr (Or.inl rfl))))))
          · exact Or.inr (Or.inr (Or.inr (Or.inr (Or.inr (Or.inr (Or.inr hd))))))
        have hne : ¬(c = 'n') ∧ ¬(c = 't') ∧ ¬(c = 'f') ∧ ¬(c = dq) ∧ ¬(c = '[') ∧
            ¬(c = lbrace) := by
          rcases hc with rfl | hd
          · exact ⟨by decide, by decide, by decide, by decide, by decide, by decide⟩
          · exact ⟨digit_ne hd (by decide), digit_ne hd (by decide), digit_ne hd (by decide),
              digit_ne hd (by decide), digit_ne hd (by decide), digit_ne hd (by decide)⟩
        rw [hr] at hlex
        simp only [List.cons_append] at hlex
        simp only [ser]
        rw [hr]
        simp only [List.cons_append]
        simp [parseValue, skipWs_cons (headCh_not_ws hch), hne.1, hne.2.1, hne.2.2.1,
          hne.2.2.2.1, hne.2.2.2.2.1, hne.2.2.2.2.2, hlex]
      | str s =>
        have hbound : s.length + 1 ≤ f := by
          simp only [ser, List.length_append, List.length_cons] at hlen
          have := escList_len s
          omega
        have hpsb := parseStringBody_rt s f rest hbound
        simp [ser, parseValue, List.append_assoc,
          skipWs_cons (show isJsonWs dq = false from by decide),
          show ¬(dq = 'n') from by decide, show ¬(dq = 't') from by decide,
          show ¬(dq = 'f') from by decide, hpsb]
      | arr xs =>
        cases xs with
        | nil =>
          simp [ser, serElems, parseValue,
            skipWs_cons (show isJsonWs '[' = false from by decide),
            skipWs_cons (show isJsonWs ']' = false from by decide),
            show ¬('[' = 'n') from by decide, show ¬('[' = 't') from by decide,
            show ¬('[' = 'f') from by decide, show ¬('[' = dq) from by decide]
        | cons x xs' =>
          have hwe : WFe (x :: xs') := hwf
          obtain ⟨c, t, hsE, hch⟩ := serElems_head (by simp) hwe
          have hbound : (serElems (x :: xs')).length + 1 ≤ f := by
            simp only [ser, List.length_append, List.length_cons] at hlen
            omega
          have hpe := ihe (x :: xs') rest (by simp) hwe hbound hrest
          rw [hsE] at hpe
          simp only [List.cons_append] at hpe
          have hnr := headCh_ne_delims hch
          simp only [ser]
          rw [hsE]
          simp only [List.cons_append, List.append_assoc]
          simp [parseValue, List.append_assoc,
            skipWs_cons (show isJsonWs '[' = false from by decide),
            skipWs_cons (headCh_not_ws hch),
            show ¬('[' = 'n') from by decide, show ¬('[' = 't') from by decide,
            show ¬('[' = 'f') from by decide, show ¬('[' = dq) from by decide,
            hnr.1, hpe]
      | obj ms =>
        cases ms with
        | nil =>
          simp [ser, serMembers, parseValue,
            skipWs_cons (show isJsonWs lbrace = false from by decide),
            skipWs_cons (show isJsonWs rbrace = false from by decide),
            show ¬(lbrace = 'n') from by decide, show ¬(lbrace = 't') from by decide,
            show ¬(lbrace = 'f') from by decide, show ¬(lbrace = dq) from by decide,
            show ¬(lbrace = '[') from by decide, dedup]
        | cons q ms' =>
          have hobj : (List.map Prod.fst (q :: ms')).Nodup ∧ WFm (q :: ms') := hwf
          obtain ⟨t, hsM⟩ := @serMembers_head (q :: ms') (List.cons_ne_nil q ms')
          have hbound : (serMembers (q :: ms')).length + 1 ≤ f := by
            simp only [ser, List.length_append, List.length_cons] at hlen
            omega
          have hpm := ihm (q :: ms') rest (by simp) hobj.2 hbound hrest
          rw [hsM] at hpm
          simp only [List.cons_append] at hpm
          simp only [ser]
          rw [hsM]
          simp only [List.cons_append, List.append_assoc]
          simp [parseValue, List.append_assoc,
            skipWs_cons (show isJsonWs lbrace = false from by decide),
            skipWs_cons (show isJsonWs dq = false from by decide),
            show ¬(lbrace = 'n') from by decide, show ¬(lbrace = 't') from by decide,
            show ¬(lbrace = 'f') from by decide, show ¬(lbrace = dq) from by decide,
            show ¬(lbrace = '[') from by decide, show ¬(dq = rbrace) from by decide,
            hpm, dedup_eq_self hobj.1]
    · intro xs rest hne hwe hlen hrest
      cases xs with
      | nil => cases hne rfl
      | cons x xs' =>
        obtain ⟨hwx, hwxs'⟩ : WFj x ∧ WFe xs' := hwe
        cases xs' with
        | nil =>
          have hbound : (ser x).length ≤ f := by
            simp only [serElems] at hlen
            omega
          have hpv := ihv x (']' :: rest) hwx hbound (by simp [TailOk])
          simp [parseElems, serElems, hpv,
            skipWs_cons (show isJsonWs ']' = false from by decide),
            show ¬(']' = ',') from by decide]
        | cons y ys =>
          have hsplit : serElems (x :: y :: ys) = ser x ++ ',' :: serElems (y :: ys) := by
            simp [serElems]
          have hlen' : (ser x).length + 1 + (serElems (y :: ys)).length + 1 ≤ f + 1 := by
            rw [hsplit] at hlen
            simp only [List.length_append, List.length_cons] at hlen
            omega
          have hbx : (ser x).length ≤ f := by omega
          have hpv := ihv x (',' :: (serElems (y :: ys) ++ ']' :: rest)) hwx hbx
            (by simp [TailOk])
          have hpe := ihe (y :: ys) rest (by simp) hwxs' (by omega) hrest
          rw [hsplit]
          simp only [List.cons_append, List.append_assoc]
          simp [parseElems, hpv,
            skipWs_cons (show isJsonWs ',' = false from by decide), hpe]
    · intro ms rest hne hwm hlen hrest
      cases ms with
      | nil => cases hne rfl
      | cons q ms' =>
        obtain ⟨hwq, hwms'⟩ : WFj q.2 ∧ WFm ms' := hwm
        cases ms' with
        | nil =>
          have hsm : serMembers [q] = dq :: escList q.1 ++ dq :: ':' :: ser q.2 := by
            simp [serMembers]
          have hkb : q.1.length + 1 ≤ f := by
            rw [hsm] at hlen
            simp only [List.length_append, List.length_cons] at hlen
            have := escList_len q.1
            omega
          have hvb : (ser q.2).length ≤ f := by
            rw [hsm] at hlen
            simp only [List.length_append, List.length_cons] at hlen
            omega
          have hpsb := parseStringBody_rt q.1 f (':' :: (ser q.2 ++ rbrace :: rest)) hkb
          have hpv := ihv q.2 (rbrace :: rest) hwq hvb (by simp [TailOk])
          rw [hsm]
          simp only [List.cons_append, List.append_assoc]
          simp [parseMembers, List.append_assoc,
            skipWs_cons (show isJsonWs dq = false from by decide),
            skipWs_cons (show isJsonWs ':' = false from by decide),
            skipWs_cons (show isJsonWs rbrace = false from by decide),
            hpsb, hpv, show ¬(rbrace = ',') from by decide]
        | cons m ms'' =>
          have hsm : serMembers (q :: m :: ms'') =
              (dq :: escList q.1 ++ dq :: ':' :: ser q.2) ++ ',' :: serMembers (m :: ms'') := by
            simp [serMembers]
          have hkb : q.1.length + 1 ≤ f := by
            rw [hsm] at hlen
            simp only [List.length_append, List.length_cons] at hlen
            have := escList_len q.1
            omega
          have hvb : (ser q.2).length ≤ f := by
            rw [hsm] at hlen
            simp only [List.length_append, List.length_cons] at hlen
            omega
          have hmb : (serMembers (m :: ms'')).length + 1 ≤ f := by
            rw [hsm] at hlen
            simp only [List.length_append, List.length_cons] at hlen
            omega
          have hpsb := parseStringBody_rt q.1 f
            (':' :: (ser q.2 ++ ',' :: (serMembers (m :: ms'') ++ rbrace :: rest))) hkb
          have hpv := ihv q.2 (',' :: (serMembers (m :: ms'') ++ rbrace :: rest)) hwq hvb
            (by simp [TailOk])
          have hpm := ihm (m :: ms'') rest (by simp) hwms' hmb hrest
          rw [hsm]
          simp only [List.cons_append, List.append_assoc]
          simp [parseMembers, List.append_assoc,
            skipWs_cons (show isJsonWs dq = false from by decide),
            skipWs_cons (show isJsonWs ':' = false from by decide),
            skipWs_cons (show isJsonWs ',' = false from by decide),
            hpsb, hpv, hpm]

/- ──────────────── parser output is well formed ──────────────── -/

theorem parseWF : ∀ f : Nat,
    (∀ cs v rest, parseValue f cs = some (v, rest) → WFj v) ∧
    (∀ cs xs rest, parseElems f cs = some (xs, rest) → WFe xs) ∧
    (∀ cs ms rest, parseMembers f cs = some (ms, rest) → WFm ms) := by
  intro f
  induction f with
  | zero =>
    refine ⟨?_, ?_, ?_⟩ <;> intro cs v rest h <;> cases h
  | succ f ih =>
    obtain ⟨ihv, ihe, ihm⟩ := ih
    refine ⟨?_, ?_, ?_⟩
    · intro cs v rest h
      rcases hs : skipWs cs with _ | ⟨c, r⟩
      · simp [parseValue, hs] at h
      · simp only [parseValue, hs] at h
        split_ifs at h with h1 h2 h3 h4 h5 h6
        · simp only [Option.map_eq_some'] at h
          obtain ⟨a, -, hb⟩ := h
          obtain ⟨rfl, rfl⟩ : Json.null = v ∧ a = rest := by
            simpa using hb
          exact trivial
        · simp only [Option.map_eq_some'] at h
          obtain ⟨a, -, hb⟩ := h
          obtain ⟨rfl, rfl⟩ : Json.bool true = v ∧ a = rest := by
            simpa using hb
          exact trivial
        · simp only [Option.map_eq_some'] at h
          obtain ⟨a, -, hb⟩ := h
          obtain ⟨rfl, rfl⟩ : Json.bool false = v ∧ a = rest := by
            simpa using hb
          exact trivial
        · simp only [Option.map_eq_some'] at h
          obtain ⟨a, -, hb⟩ := h
          obtain ⟨rfl, rfl⟩ : Json.str a.1 = v ∧ a.2 = rest := by
            simpa using hb
          exact trivial
        · rcases hs2 : skipWs r with _ | ⟨c', r'⟩
          · simp [hs2] at h
          · simp only [hs2] at h
            split_ifs at h with hbr
            · obtain ⟨rfl, rfl⟩ : Json.arr [] = v ∧ r' = rest := by
                simpa using h
              exact trivial
            · simp only [Option.map_eq_some'] at h
              obtain ⟨a, ha, hb⟩ := h
              obtain ⟨rfl, rfl⟩ : Json.arr a.1 = v ∧ a.2 = rest := by
                simpa using hb
              exact ihe _ _ _ ha
        · rcases hs2 : skipWs r with _ | ⟨c', r'⟩
          · simp [hs2] at h
          · simp only [hs2] at h
            split_ifs at h with hbr
            · obtain ⟨rfl, rfl⟩ : Json.obj [] = v ∧ r' = rest := by
                simpa using h
              exact ⟨by simp, trivial⟩
            · simp only [Option.map_eq_some'] at h
              obtain ⟨a, ha, hb⟩ := h
              obtain ⟨rfl, rfl⟩ : Json.obj (dedup a.1) = v ∧ a.2 = rest := by
                simpa using hb
              refine ⟨dedup_nodup a.1, ?_⟩
              rw [WFm_iff]
              intro q hq
              obtain ⟨q', hq', -, he2⟩ := dedup_sub hq
              rw [← he2]
              exact WFm_iff.mp (ihm _ _ _ ha) q' hq'
        · simp only [Option.map_eq_some'] at h
          obtain ⟨a, ha, hb⟩ := h
          obtain ⟨rfl, rfl⟩ : Json.num a.1 = v ∧ a.2 = rest := by
            simpa using hb
          exact lexNumber_wf (ha : lexNumber (c :: r) = some (a.1, a.2))
    · intro cs xs rest h
      rcases hpv : parseValue f cs with _ | ⟨⟨v, r⟩⟩
      · simp [parseElems, hpv] at h
      · simp only [parseElems, hpv] at h
        rcases hs2 : skipWs r with _ | ⟨c, r'⟩
        · simp [hs2] at h
        · simp only [hs2] at h
          split_ifs at h with hcm hbr
          · simp only [Option.map_eq_some'] at h
            obtain ⟨a, ha, hb⟩ := h
            obtain ⟨rfl, rfl⟩ : v :: a.1 = xs ∧ a.2 = rest := by
              simpa using hb
            exact ⟨ihv _ _ _ hpv, ihe _ _ _ ha⟩
          · obtain ⟨rfl, rfl⟩ : [v] = xs ∧ r' = rest := by
              simpa using h
            exact ⟨ihv _ _ _ hpv, trivial⟩
    · intro cs ms rest h
      rcases hs : skipWs cs with _ | ⟨c, r⟩
      · simp [parseMembers, hs] at h
      · simp only [parseMembers, hs] at h
        split_ifs at h with hc
        · rcases hsb : parseStringBody f r with _ | ⟨⟨k, r₁⟩⟩
          · simp [hsb] at h
          · simp only [hsb] at h
            rcases hs2 : skipWs r₁ with _ | ⟨c₂, r₂⟩
            · simp [hs2] at h
            · simp only [hs2] at h
              split_ifs at h with hcl
              · rcases hpv : parseValue f r₂ with _ | ⟨⟨v, r₃⟩⟩
                · simp [hpv] at h
                · simp only [hpv] at h
                  rcases hs3 : skipWs r₃ with _ | ⟨c₄, r₄⟩
                  · simp [hs3] at h
                  · simp only [hs3] at h
                    split_ifs at h with hcm hbr
                    · simp only [Option.map_eq_some'] at h
                      obtain ⟨a, ha, hb⟩ := h
                      obtain ⟨rfl, rfl⟩ : (k, v) :: a.1 = ms ∧ a.2 = rest := by
                        simpa using hb
                      exact ⟨ihv _ _ _ hpv, ihm _ _ _ ha⟩
                    · obtain ⟨rfl, rfl⟩ : [(k, v)] = ms ∧ r₄ = rest := by
                        simpa using h
                      exact ⟨ihv _ _ _ hpv, trivial⟩

/- ──────────────── top-level normalizer properties ──────────────── -/

theorem parseJson_wf {cs : List Char} {v : Json} (h : parseJson cs = some v) : WFj v := by
  unfold parseJson at h
  rcases hpv : parseValue (cs.length + 1) cs with _ | ⟨⟨w, rest⟩⟩
  · rw [hpv] at h
    cases h
  · rw [hpv] at h
    dsimp only at h
    split_ifs at h
    injection h with h'
    subst h'
    exact (parseWF _).1 _ _ _ hpv

theorem parseJson_ser {v : Json} (h : WFj v) : parseJson (ser v) = some v := by
  have hrt := (parseSer ((ser v).length + 1)).1 v [] h (by omega) True.intro
  rw [List.append_nil] at hrt
  unfold parseJson
  rw [hrt]
  simp [skipWs]

theorem normalizeL_idem (cs : List Char) : normalizeL (normalizeL cs) = normalizeL cs := by
  rcases hp : parseJson cs with _ | v
  · simp [normalizeL, hp]
  · have hwf := parseJson_wf hp
    simp [normalizeL, hp, parseJson_ser hwf]

theorem normalize_idem (s : String) : normalize (normalize s) = normalize s :=
  congrArg String.mk (normalizeL_idem s.data)

/- ════════════════ program model: src/server.js ════════════════ -/

/- ──────────────── URL resolution ──────────────── -/

/-- Characters up to (excluding) the first slash. -/
def upToSlash : List Char → List Char
  | [] => []
  | c :: r => if c = '/' then [] else c :: upToSlash r

/-- Scheme, `://` and host of an absolute URL — the prefix up to (excluding)
the first slash of the path. -/
def originOf : List Char → List Char
  | [] => []
  | ':' :: '/' :: '/' :: r => ':' :: '/' :: '/' :: upToSlash r
  | c :: r => c :: originOf r

/-- Prefix of the base URL up to and including the last slash. -/
def dirOf (cs : List Char) : List Char :=
  (cs.reverse.dropWhile (fun c => decide (c ≠ '/'))).reverse

/-- Model of WHATWG `new URL(rel, base)` for the shapes this program uses:
an absolute `https` base without query or fragment, and a `rel` that is
either path-absolute (leading slash — replaces the whole base path) or a
relative path (resolved against the base directory).  Percent-encoding of
special characters is not modelled: tool arguments are taken to consist of
URL code points, which the serializer keeps verbatim. -/
def urlResolve (base rel : List Char) : List Char :=
  if rel.head? = some '/' then originOf base ++ rel else dirOf base ++ rel

/-- `BASE_URL` of `src/server.js` line 26 — the trailing slash is kept, as
the comment there insists. -/
def BASE_URL : String := "https://api.withleaf.io/services/"

/-- `BASE_URL` of the secondary variant (`part_001` line 13) — no trailing
slash. -/
def p1_BASE_URL : String := "https://api.withleaf.io/services"

/-- Resolve a path template of `src/server.js` against `BASE_URL`. -/
def mainUrl (rel : List Char) : List Char := urlResolve BASE_URL.data rel

/- ──────────────── query parameters ──────────────── -/

/-- Content of `url.searchParams` after
`for (const [k, v] of Object.entries(args)) if (v !== undefined) url.searchParams.set(k, v)`:
the supplied parameters in schema order; absent ones never enter. -/
def addParams (params : List (List Char × Option (List Char))) :
    List (List Char × List Char) :=
  params.filterMap (fun p => p.2.map (fun v => (p.1, v)))

/-- Query-string serialization of search parameters (`?k=v&…`; empty when
no parameter was set, so the URL then carries no question mark). -/
def renderQuery (ps : List (List Char × List Char)) : List Char :=
  match ps with
  | [] => []
  | _ => '?' :: List.intercalate ['&'] (ps.map (fun p => p.1 ++ '=' :: p.2))

/- ──────────────── authorization and requests ──────────────── -/

/-- HTTP request descriptor as assembled by the fetch wrappers. -/
structure Request where
  url : List Char
  method : List Char
  authToken : List Char
  contentType : Option (List Char)
  body : Option (List Char)
deriving DecidableEq

/-- The token expression `session?.leafToken || \x60Bearer ${ENV_TOKEN}\x60`
each `execute` passes to the fetch wrappers (server.js line 113 and its
analogues): JS `||` takes the fallback when the left side is `undefined`
(no session, or a session without token) or the empty string (falsy). -/
def resolveAuth (sessionToken : Option (List Char)) (envToken : List Char) : List Char :=
  match sessionToken with
  | some t => if t = [] then "Bearer ".data ++ envToken else t
  | none => "Bearer ".data ++ envToken

/-- `_get` (server.js lines 43-47): GET request carrying only the
Authorization header, no body. -/
def _get (url : List Char) (token : List Char) : Request :=
  ⟨url, "GET".data, token, none, none⟩

/-- The body text `JSON.stringify(bodyObj ?? \x7b\x7d)`: an absent
(`undefined`) or `null` body collapses to the empty object before
serialization. -/
def bodyText (b : Option Json) : List Char :=
  match b with
  | none => ser (Json.obj [])
  | some Json.null => ser (Json.obj [])
  | some v => ser v

/-- `_bodyReq` (server.js lines 48-56): JSON-bodied request carrying the
Authorization and Content-Type headers. -/
def _bodyReq (url : List Char) (method : List Char) (b : Option Json)
    (token : List Char) : Request :=
  ⟨url, method, token, some "application/json".data, some (bodyText b)⟩

/- ──────────────── dispatch outcome ──────────────── -/

/-- Outcome of the upstream `fetch`: a response with some status and body
text, or a transport-level failure (rejected promise). -/
inductive Upstream where
  | response (status : Nat) (body : List Char)
  | netError

/-- Dispatcher-level failures. -/
inductive DispatchError where
  | invalidArgument
  | upstreamUnreachable
deriving DecidableEq

/-- Completion of `_get`/`_bodyReq` (server.js lines 43-56): the response
status is never inspected — the body text is normalised and returned
whatever the status was; a rejected `fetch` propagates out of `execute` as
a dispatch failure. -/
def completeRequest (o : Upstream) : Except DispatchError (List Char) :=
  match o with
  | Upstream.response _ body => Except.ok (normalizeL body)
  | Upstream.netError => Except.error DispatchError.upstreamUnreachable

/- ──────────────── startup (server.js lines 14-23, 59-60) ──────────────── -/

/-- `String.prototype.trim` whitespace (the ASCII range; the exotic Unicode
space characters JS also strips are irrelevant to credentials). -/
def isTrimWs (c : Char) : Bool :=
  decide (c.toNat = 32 ∨ c.toNat = 9 ∨ c.toNat = 10 ∨ c.toNat = 13 ∨
    c.toNat = 11 ∨ c.toNat = 12)

/-- Model of `s.trim()`. -/
def trimJs (cs : List Char) : List Char :=
  ((cs.dropWhile isTrimWs).reverse.dropWhile isTrimWs).reverse

/-- Names of the tools `src/server.js` registers, in registration order
(lines 85-548).  Descriptions are elided: the claims below concern the
names and the post-startup immutability of the catalogue. -/
def catalogueNames : List String :=
  ["listDocs", "getDoc", "createField", "getField", "listFields",
   "getFieldBoundary", "updateFieldBoundary", "listOperations", "getOperation",
   "getOperationSummary", "getOperationUnits", "listUsers", "listFiles",
   "getFile", "getFileSummary", "getFileStatus",
   "getWeatherForecastFieldDaily", "getWeatherForecastFieldHourly",
   "getWeatherForecastLatLonDaily", "getWeatherForecastLatLonHourly",
   "getWeatherHistoricalFieldDaily", "getWeatherHistoricalFieldHourly",
   "getWeatherHistoricalLatLonDaily", "getWeatherHistoricalLatLonHourly"]

/-- Result of module start: the thrown configuration error, or a serving
process with its (write-once) catalogue and environment token. -/
inductive StartupResult where
  | fatal
  | running (catalogue : List String) (envToken : List Char)
deriving DecidableEq

/-- Module top level of `src/server.js`:
`ENV_TOKEN = (process.env.LEAF_API_KEY || "").trim()` (line 19); in stdio
mode an empty token throws (lines 21-23) before any `addTool` call (first
one at line 85) runs; otherwise every tool is registered and serving starts
with the fixed catalogue. -/
def startup (useHttp : Bool) (leafApiKey : Option (List Char)) : StartupResult :=
  let envToken := trimJs (leafApiKey.getD [])
  if useHttp = false ∧ envToken = [] then StartupResult.fatal
  else StartupResult.running catalogueNames envToken

/- ──────────────── per-tool URL builders (src/server.js) ──────────────── -/

/-- `createField`: `new URL(\x60fields/api/users/${leafUserId}/fields\x60, BASE_URL)`. -/
def createField_url (leafUserId : List Char) : List Char :=
  mainUrl ("fields/api/users/".data ++ leafUserId ++ "/fields".data)

/-- `getField`: `new URL(\x60fields/api/users/${leafUserId}/fields/${fieldId}\x60, BASE_URL)`. -/
def getField_url (leafUserId fieldId : List Char) : List Char :=
  mainUrl ("fields/api/users/".data ++ leafUserId ++ "/fields/".data ++ fieldId)

/-- `listFields` path URL (query appended separately). -/
def listFields_url : List Char := mainUrl "fields/api/fields".data

/-- `getFieldBoundary` / `updateFieldBoundary` path. -/
def fieldBoundary_url (leafUserId fieldId : List Char) : List Char :=
  mainUrl ("fields/api/users/".data ++ leafUserId ++ "/fields/".data ++ fieldId ++
    "/boundary".data)

/-- `listOperations` path URL. -/
def listOperations_url : List Char := mainUrl "operations/api/operations".data

/-- `getOperation`. -/
def getOperation_url (id : List Char) : List Char :=
  mainUrl ("operations/api/operations/".data ++ id)

/-- `getOperationSummary`. -/
def getOperationSummary_url (id : List Char) : List Char :=
  mainUrl ("operations/api/operations/".data ++ id ++ "/summary".data)

/-- `getOperationUnits`. -/
def getOperationUnits_url (id : List Char) : List Char :=
  mainUrl ("operations/api/operations/".data ++ id ++ "/units".data)

/-- `listUsers` path URL. -/
def listUsers_url : List Char := mainUrl "usermanagement/api/users".data

/-- `listFiles` path URL. -/
def listFiles_url : List Char := mainUrl "operations/api/files".data

/-- `getFile`. -/
def getFile_url (id : List Char) : List Char :=
  mainUrl ("operations/api/files/".data ++ id)

/-- `getFileSummary`. -/
def getFileSummary_url (id : List Char) : List Char :=
  mainUrl ("operations/api/files/".data ++ id ++ "/summary".data)

/-- `getFileStatus`. -/
def getFileStatus_url (id : List Char) : List Char :=
  mainUrl ("operations/api/files/".data ++ id ++ "/status".data)

/-- `getWeatherForecastFieldDaily` (weather path arguments are the string
renderings of the supplied values). -/
def weatherForecastFieldDaily_url (leafUserId fieldId : List Char) : List Char :=
  mainUrl ("weather/api/users/".data ++ leafUserId ++ "/weather/forecast/field/".data ++
    fieldId ++ "/daily".data)

/-- `getWeatherForecastFieldHourly`. -/
def weatherForecastFieldHourly_url (leafUserId fieldId : List Char) : List Char :=
  mainUrl ("weather/api/users/".data ++ leafUserId ++ "/weather/forecast/field/".data ++
    fieldId ++ "/hourly".data)

/-- `getWeatherForecastLatLonDaily` (`lat`, `lon` are `String(lat)`,
`String(lon)`). -/
def weatherForecastLatLonDaily_url (lat lon : List Char) : List Char :=
  mainUrl ("weather/api/weather/forecast/daily/".data ++ lat ++ ",".data ++ lon)

/-- `getWeatherForecastLatLonHourly`. -/
def weatherForecastLatLonHourly_url (lat lon : List Char) : List Char :=
  mainUrl ("weather/api/weather/forecast/hourly/".data ++ lat ++ ",".data ++ lon)

/-- `getWeatherHistoricalFieldDaily`. -/
def weatherHistoricalFieldDaily_url (leafUserId fieldId : List Char) : List Char :=
  mainUrl ("weather/api/users/".data ++ leafUserId ++ "/weather/historical/field/".data ++
    fieldId ++ "/daily".data)

/-- `getWeatherHistoricalFieldHourly`. -/
def weatherHistoricalFieldHourly_url (leafUserId fieldId : List Char) : List Char :=
  mainUrl ("weather/api/users/".data ++ leafUserId ++ "/weather/historical/field/".data ++
    fieldId ++ "/hourly".data)

/-- `getWeatherHistoricalLatLonDaily`. -/
def weatherHistoricalLatLonDaily_url (lat lon : List Char) : List Char :=
  mainUrl ("weather/api/weather/historical/daily/".data ++ lat ++ ",".data ++ lon)

/-- `getWeatherHistoricalLatLonHourly`. -/
def weatherHistoricalLatLonHourly_url (lat lon : List Char) : List Char :=
  mainUrl ("weather/api/weather/historical/hourly/".data ++ lat ++ ",".data ++ lon)

/-- `getField` URL of the secondary variant (`part_001` lines 56-58): the
path template is absolute (leading slash) and the base has no trailing
slash, so resolution replaces the whole base path. -/
def p1_getField_url (leafUserId fieldId : List Char) : List Char :=
  urlResolve p1_BASE_URL.data
    ("/fields/api/users/".data ++ leafUserId ++ "/fields/".data ++ fieldId)

/-- `listFields` URL of the secondary variant (`part_001` line 78). -/
def p1_listFields_url : List Char :=
  urlResolve p1_BASE_URL.data "/fields/api/fields".data

/- ──────────────── tool requests ──────────────── -/

/-- `createField.execute` (server.js lines 104-115). -/
def createField_request (leafUserId : List Char) (body : Option Json)
    (session : Option (List Char)) (env : List Char) : Request :=
  _bodyReq (createField_url leafUserId) "POST".data body (resolveAuth session env)

/-- `getField.execute` (server.js lines 117-126). -/
def getField_request (leafUserId fieldId : List Char)
    (session : Option (List Char)) (env : List Char) : Request :=
  _get (getField_url leafUserId fieldId) (resolveAuth session env)

/-- `updateFieldBoundary.execute` (server.js lines 168-179). -/
def updateFieldBoundary_request (leafUserId fieldId : List Char) (body : Option Json)
    (session : Option (List Char)) (env : List Char) : Request :=
  _bodyReq (fieldBoundary_url leafUserId fieldId) "PUT".data body (resolveAuth session env)

/- ──────────────── zod validation of list-tool parameters ──────────────── -/

/-- String rendering of a numeric argument (`String(v)`), for the integral
values the schemas accept. -/
def ratChars (q : Rat) : List Char := (toString q.num).data

/-- `z.number().int()`: only integral numbers pass. -/
def zInt (q : Rat) : Bool := decide (q.den = 1)

/-- `z.number().int().min(0)` — the `page` schema. -/
def zPage (q : Rat) : Bool := zInt q && decide (0 ≤ q)

/-- `z.number().int().min(1).max(100)` — the `size` schema. -/
def zSize (q : Rat) : Bool := zInt q && decide (1 ≤ q) && decide (q ≤ 100)

/-- `.optional()`: an absent field always validates. -/
def optOk (f : Rat → Bool) : Option Rat → Bool
  | none => true
  | some q => f q

/-- Raw (pre-validation) arguments of `listFields`.  Numeric arguments are
modelled as rationals (JSON numbers; `z.number().int()` accepts only
integral ones). -/
structure ListFieldsRaw where
  type : Option (List Char)
  farmId : Option Rat
  provider : Option (List Char)
  leafUserId : Option (List Char)
  page : Option Rat
  size : Option Rat

/-- The numeric constraints of `listFields.parameters` (server.js lines
145-149).  The string-typed fields and the uuid format check are not
modelled: omitting a check only lets more dispatches through, and no claim
below relies on a dispatch being rejected for those fields. -/
def listFields_check (a : ListFieldsRaw) : Bool :=
  optOk zInt a.farmId && optOk zPage a.page && optOk zSize a.size

/-- The schema fields of `listFields` in order, each paired with the
supplied argument (numbers already rendered to their string
representations). -/
def listFields_params (a : ListFieldsRaw) : List (List Char × Option (List Char)) :=
  [("type".data, a.type), ("farmId".data, a.farmId.map ratChars),
   ("provider".data, a.provider), ("leafUserId".data, a.leafUserId),
   ("page".data, a.page.map ratChars), ("size".data, a.size.map ratChars)]

/-- Query parameters built by `listFields.execute` from validated
arguments. -/
def listFields_query (a : ListFieldsRaw) : List (List Char × List Char) :=
  addParams (listFields_params a)

/-- Full `href` fetched by `listFields.execute`. -/
def listFields_href (a : ListFieldsRaw) : List Char :=
  listFields_url ++ renderQuery (listFields_query a)

/-- Dispatch of `listFields`: the transport validates the arguments against
the zod schema before `execute` runs; a failure yields an invalid-argument
error and `execute` — hence `fetch` — is never reached. -/
def listFields_dispatch (a : ListFieldsRaw) (session : Option (List Char))
    (env : List Char) : Except DispatchError Request :=
  if listFields_check a then
    Except.ok (_get (listFields_href a) (resolveAuth session env))
  else Except.error DispatchError.invalidArgument

/-- Raw arguments of `listOperations` (server.js lines 209-215). -/
structure ListOperationsRaw where
  leafUserId : Option (List Char)
  provider : Option (List Char)
  startTime : Option (List Char)
  updatedTime : Option (List Char)
  endTime : Option (List Char)
  operationType : Option (List Char)
  fieldId : Option (List Char)
  page : Option Rat
  size : Option Rat
  sort : Option (List Char)

/-- Numeric constraints of `listOperations.parameters`. -/
def listOperations_check (a : ListOperationsRaw) : Bool :=
  optOk zPage a.page && optOk zSize a.size

/-- The schema fields of `listOperations` in order. -/
def listOperations_params (a : ListOperationsRaw) : List (List Char × Option (List Char)) :=
  [("leafUserId".data, a.leafUserId), ("provider".data, a.provider),
   ("startTime".data, a.startTime), ("updatedTime".data, a.updatedTime),
   ("endTime".data, a.endTime), ("operationType".data, a.operationType),
   ("fieldId".data, a.fieldId), ("page".data, a.page.map ratChars),
   ("size".data, a.size.map ratChars), ("sort".data, a.sort)]

/-- Query parameters of `listOperations.execute` (schema order). -/
def listOperations_query (a : ListOperationsRaw) : List (List Char × List Char) :=
  addParams (listOperations_params a)

/-- Dispatch of `listOperations`. -/
def listOperations_dispatch (a : ListOperationsRaw) (session : Option (List Char))
    (env : List Char) : Except DispatchError Request :=
  if listOperations_check a then
    Except.ok (_get (listOperations_url ++ renderQuery (listOperations_query a))
      (resolveAuth session env))
  else Except.error DispatchError.invalidArgument

/-- Raw arguments of `listUsers` (server.js lines 265-269). -/
structure ListUsersRaw where
  email : Option (List Char)
  name : Option (List Char)
  externalId : Option (List Char)
  page : Option Rat
  size : Option Rat

/-- Numeric constraints of `listUsers.parameters`. -/
def listUsers_check (a : ListUsersRaw) : Bool :=
  optOk zPage a.page && optOk zSize a.size

/-- The schema fields of `listUsers` in order. -/
def listUsers_params (a : ListUsersRaw) : List (List Char × Option (List Char)) :=
  [("email".data, a.email), ("name".data, a.name),
   ("externalId".data, a.externalId), ("page".data, a.page.map ratChars),
   ("size".data, a.size.map ratChars)]

/-- Query parameters of `listUsers.execute` (schema order). -/
def listUsers_query (a : ListUsersRaw) : List (List Char × List Char) :=
  addParams (listUsers_params a)

/-- Dispatch of `listUsers`. -/
def listUsers_dispatch (a : ListUsersRaw) (session : Option (List Char))
    (env : List Char) : Except DispatchError Request :=
  if listUsers_check a then
    Except.ok (_get (listUsers_url ++ renderQuery (listUsers_query a))
      (resolveAuth session env))
  else Except.error DispatchError.invalidArgument

/-- Raw arguments of `listFiles` (server.js lines 303-312); `minArea` is a
plain number (its query rendering is kept abstract as the supplied string
representation). -/
structure ListFilesRaw where
  leafUserId : Option (List Char)
  provider : Option (List Char)
  status : Option (List Char)
  origin : Option (List Char)
  organizationId : Option (List Char)
  batchId : Option (List Char)
  createdTime : Option (List Char)
  startTime : Option (List Char)
  updatedTime : Option (List Char)
  endTime : Option (List Char)
  operationType : Option (List Char)
  minArea : Option (List Char)
  page : Option Rat
  size : Option Rat
  sort : Option (List Char)

/-- Numeric constraints of `listFiles.parameters`. -/
def listFiles_check (a : ListFilesRaw) : Bool :=
  optOk zPage a.page && optOk zSize a.size

/-- The schema fields of `listFiles` in order. -/
def listFiles_params (a : ListFilesRaw) : List (List Char × Option (List Char)) :=
  [("leafUserId".data, a.leafUserId), ("provider".data, a.provider),
   ("status".data, a.status), ("origin".data, a.origin),
   ("organizationId".data, a.organizationId), ("batchId".data, a.batchId),
   ("createdTime".data, a.createdTime), ("startTime".data, a.startTime),
   ("updatedTime".data, a.updatedTime), ("endTime".data, a.endTime),
   ("operationType".data, a.operationType), ("minArea".data, a.minArea),
   ("page".data, a.page.map ratChars), ("size".data, a.size.map ratChars),
   ("sort".data, a.sort)]

/-- Query parameters of `listFiles.execute` (schema order). -/
def listFiles_query (a : ListFilesRaw) : List (List Char × List Char) :=
  addParams (listFiles_params a)

/-- Dispatch of `listFiles`. -/
def listFiles_dispatch (a : ListFilesRaw) (session : Option (List Char))
    (env : List Char) : Except DispatchError Request :=
  if listFiles_check a then
    Except.ok (_get (listFiles_url ++ renderQuery (listFiles_query a))
      (resolveAuth session env))
  else Except.error DispatchError.invalidArgument

/- ──────────────── query parameter lemmas ──────────────── -/

theorem addParams_mem {ps : List (List Char × Option (List Char))} {k v : List Char} :
    (k, v) ∈ addParams ps ↔ (k, some v) ∈ ps := by
  simp only [addParams, List.mem_filterMap]
  constructor
  · rintro ⟨⟨k', v'⟩, hp, hf⟩
    cases v' with
    | none => simp at hf
    | some w =>
      simp only [Option.map_some', Option.some.injEq, Prod.mk.injEq] at hf
      obtain ⟨rfl, rfl⟩ := hf
      exact hp
  · intro hp
    exact ⟨(k, some v), hp, by simp⟩

theorem nodupKeys_eq {α β : Type} {ps : List (α × β)} (h : (ps.map Prod.fst).Nodup)
    {p q : α × β} (hp : p ∈ ps) (hq : q ∈ ps) (he : p.1 = q.1) : p = q := by
  induction ps with
  | nil => cases hp
  | cons r rs ih =>
    simp only [List.map_cons, List.nodup_cons] at h
    rcases List.mem_cons.mp hp with rfl | hp' <;> rcases List.mem_cons.mp hq with rfl | hq'
    · rfl
    · exact absurd (he ▸ List.mem_map_of_mem Prod.fst hq') h.1
    · exact absurd (he ▸ List.mem_map_of_mem Prod.fst hp') h.1
    · exact ih h.2 hp' hq'

/-- On a parameter list with pairwise-distinct keys, a field supplied as
`none` contributes no query pair at all, and a field supplied as `some w`
contributes exactly the pair `(key, w)`. -/
theorem queryKeyed {ps : List (List Char × Option (List Char))}
    (hnd : (ps.map Prod.fst).Nodup) (p : List Char × Option (List Char)) (hp : p ∈ ps) :
    (p.2 = none → ∀ v, (p.1, v) ∉ addParams ps) ∧
    (∀ w, p.2 = some w → (p.1, w) ∈ addParams ps) := by
  constructor
  · intro hnone v hv
    have hv' : (p.1, some v) ∈ ps := addParams_mem.mp hv
    have he : p = (p.1, some v) := nodupKeys_eq hnd hp hv' rfl
    have h2 : p.2 = some v := congrArg Prod.snd he
    rw [hnone] at h2
    cases h2
  · intro w hw
    refine addParams_mem.mpr ?_
    have he : p = (p.1, some w) := by rw [← hw]
    rw [← he]
    exact hp

/- ──────────────── zod bound lemmas ──────────────── -/

theorem zSize_false {q : Rat} (h : q.den ≠ 1 ∨ q < 1 ∨ 100 < q) : zSize q = false := by
  cases hz : zSize q with
  | false => rfl
  | true =>
    exfalso
    simp only [zSize, zInt, Bool.and_eq_true, decide_eq_true_eq] at hz
    rcases h with h | h | h
    · exact h hz.1.1
    · exact absurd hz.1.2 (not_le.mpr h)
    · exact absurd hz.2 (not_le.mpr h)

theorem zPage_false {q : Rat} (h : q.den ≠ 1 ∨ q < 0) : zPage q = false := by
  cases hz : zPage q with
  | false => rfl
  | true =>
    exfalso
    simp only [zPage, zInt, Bool.and_eq_true, decide_eq_true_eq] at hz
    rcases h with h | h
    · exact h hz.1
    · exact absurd hz.2 (not_le.mpr h)

/- ════════════════ claim theorems ════════════════ -/

/-- C1: in `src/server.js` every path template resolves against `BASE_URL`
to the fixed base `https://api.withleaf.io/services/` followed by the
endpoint path, each placeholder substituted by the argument exactly once
and none left unresolved — shown as literal concatenation equations for
every networked tool.  In the secondary variant, however, the absolute
path templates resolved against the slashless base drop the `/services`
segment: the same `getField` invocation yields
`https://api.withleaf.io/fields/api/users/u/fields/f`, the failing input
recorded for this claim. -/
theorem C1_url_construction :
    (∀ u, createField_url u =
      "https://api.withleaf.io/services/fields/api/users/".data ++ u ++ "/fields".data) ∧
    (∀ u f, getField_url u f =
      "https://api.withleaf.io/services/fields/api/users/".data ++ u ++ "/fields/".data ++ f) ∧
    (∀ a, listFields_href a =
      "https://api.withleaf.io/services/fields/api/fields".data ++
        renderQuery (listFields_query a)) ∧
    (∀ u f, fieldBoundary_url u f =
      "https://api.withleaf.io/services/fields/api/users/".data ++ u ++ "/fields/".data ++
        f ++ "/boundary".data) ∧
    (listOperations_url = "https://api.withleaf.io/services/operations/api/operations".data) ∧
    (∀ i, getOperation_url i =
      "https://api.withleaf.io/services/operations/api/operations/".data ++ i) ∧
    (∀ i, getOperationSummary_url i =
      "https://api.withleaf.io/services/operations/api/operations/".data ++ i ++
        "/summary".data) ∧
    (∀ i, getOperationUnits_url i =
      "https://api.withleaf.io/services/operations/api/operations/".data ++ i ++
        "/units".data) ∧
    (listUsers_url = "https://api.withleaf.io/services/usermanagement/api/users".data) ∧
    (listFiles_url = "https://api.withleaf.io/services/operations/api/files".data) ∧
    (∀ i, getFile_url i =
      "https://api.withleaf.io/services/operations/api/files/".data ++ i) ∧
    (∀ i, getFileSummary_url i =
      "https://api.withleaf.io/services/operations/api/files/".data ++ i ++ "/summary".data) ∧
    (∀ i, getFileStatus_url i =
      "https://api.withleaf.io/services/operations/api/files/".data ++ i ++ "/status".data) ∧
    (∀ u f, weatherForecastFieldDaily_url u f =
      "https://api.withleaf.io/services/weather/api/users/".data ++ u ++
        "/weather/forecast/field/".data ++ f ++ "/daily".data) ∧
    (∀ u f, weatherForecastFieldHourly_url u f =
      "https://api.withleaf.io/services/weather/api/users/".data ++ u ++
        "/weather/forecast/field/".data ++ f ++ "/hourly".data) ∧
    (∀ la lo, weatherForecastLatLonDaily_url la lo =
      "https://api.withleaf.io/services/weather/api/weather/forecast/daily/".data ++ la ++
        ",".data ++ lo) ∧
    (∀ la lo, weatherForecastLatLonHourly_url la lo =
      "https://api.withleaf.io/services/weather/api/weather/forecast/hourly/".data ++ la ++
        ",".data ++ lo) ∧
    (∀ u f, weatherHistoricalFieldDaily_url u f =
      "https://api.withleaf.io/services/weather/api/users/".data ++ u ++
        "/weather/historical/field/".data ++ f ++ "/daily".data) ∧
    (∀ u f, weatherHistoricalFieldHourly_url u f =
      "https://api.withleaf.io/services/weather/api/users/".data ++ u ++
        "/weather/historical/field/".data ++ f ++ "/hourly".data) ∧
    (∀ la lo, weatherHistoricalLatLonDaily_url la lo =
      "https://api.withleaf.io/services/weather/api/weather/historical/daily/".data ++ la ++
        ",".data ++ lo) ∧
    (∀ la lo, weatherHistoricalLatLonHourly_url la lo =
      "https://api.withleaf.io/services/weather/api/weather/historical/hourly/".data ++ la ++
        ",".data ++ lo) ∧
    (p1_getField_url "u".data "f".data =
      "https://api.withleaf.io/fields/api/users/u/fields/f".data) ∧
    (p1_listFields_url = "https://api.withleaf.io/fields/api/fields".data) :=
  ⟨fun _ => rfl, fun _ _ => rfl, fun _ => rfl, fun _ _ => rfl, rfl, fun _ => rfl,
   fun _ => rfl, fun _ => rfl, rfl, rfl, fun _ => rfl, fun _ => rfl, fun _ => rfl,
   fun _ _ => rfl, fun _ _ => rfl, fun _ _ => rfl, fun _ _ => rfl, fun _ _ => rfl,
   fun _ _ => rfl, fun _ _ => rfl, fun _ _ => rfl, rfl, rfl⟩

/-- C2 counterexample: with no session credential and an empty process-wide
token, the resolver does not fail and no request is suppressed —
`createField` still builds an upstream request whose Authorization value is
the literal `Bearer ` followed by nothing. -/
theorem C2_counterexample :
    (createField_request "u".data none none []).authToken = "Bearer ".data ∧
    createField_request "u".data none none [] =
      _bodyReq (createField_url "u".data) "POST".data none "Bearer ".data :=
  ⟨rfl, rfl⟩

/-- C2 (amended): a nonempty per-request session token takes precedence
over the process-wide token; an absent (or empty) session credential falls
back to `"Bearer " ++ envToken`; and when the process-wide token is also
empty the resolver does not fail — the request is still built, carrying
`Bearer ` with an empty token. -/
theorem C2_auth_resolution :
    (∀ t env, t ≠ [] → resolveAuth (some t) env = t) ∧
    (∀ env, resolveAuth none env = "Bearer ".data ++ env) ∧
    (∀ env, resolveAuth (some []) env = "Bearer ".data ++ env) ∧
    (∀ u body session env,
      (createField_request u body session env).authToken = resolveAuth session env) := by
  refine ⟨?_, fun env => rfl, fun env => rfl, fun u body session env => rfl⟩
  intro t env ht
  simp [resolveAuth, ht]

/-- C2 witness: the amended characterization applied at concrete inputs. -/
theorem C2_auth_resolution_witness :
    resolveAuth (some "session-token".data) "env-token".data = "session-token".data :=
  C2_auth_resolution.1 "session-token".data "env-token".data (by decide)

/-- C3: the response normaliser is total — every input string is mapped
either to the re-serialization of its parsed JSON value or, when it does
not parse, to itself unchanged — and the three concrete examples of the
specification hold. -/
theorem C3_normalize_total :
    (∀ s : String,
      (∃ v, parseJson s.data = some v ∧ normalize s = ⟨ser v⟩) ∨
      (parseJson s.data = none ∧ normalize s = s)) ∧
    normalize "\x7b\"a\":1\x7d" = "\x7b\"a\":1\x7d" ∧
    normalize "not json" = "not json" ∧
    normalize "" = "" := by
  refine ⟨?_, rfl, rfl, rfl⟩
  intro s
  rcases hp : parseJson s.data with _ | v
  · right
    refine ⟨rfl, ?_⟩
    have hL : normalizeL s.data = s.data := by simp [normalizeL, hp]
    calc normalize s = (⟨normalizeL s.data⟩ : String) := rfl
      _ = (⟨s.data⟩ : String) := by rw [hL]
      _ = s := rfl
  · left
    refine ⟨v, rfl, ?_⟩
    have hL : normalizeL s.data = ser v := by simp [normalizeL, hp]
    calc normalize s = (⟨normalizeL s.data⟩ : String) := rfl
      _ = (⟨ser v⟩ : String) := by rw [hL]

/-- C4: in stdio mode a missing or blank-after-trimming credential makes
startup fatal — the fatal result carries no catalogue, so no tool
registration completes and serving never starts — while a `running` result
in stdio mode always carries a nonempty trimmed token; the check is part of
`startup` alone, not of any per-call function. -/
theorem C4_startup_guard :
    (∀ key, trimJs (key.getD []) = [] → startup false key = StartupResult.fatal) ∧
    startup false none = StartupResult.fatal ∧
    (∀ key cat env, startup false key = StartupResult.running cat env → env ≠ []) := by
  refine ⟨?_, rfl, ?_⟩
  · intro key h
    simp [startup, h]
  · intro key cat env h
    simp only [startup] at h
    split_ifs at h with hc
    simp only [StartupResult.running.injEq] at h
    intro he
    exact hc ⟨trivial, h.2.trans he⟩

/-- C4 witness: a blank credential (spaces only) is fatal in stdio mode,
and a serving stdio process has a nonempty token. -/
theorem C4_startup_guard_witness :
    startup false (some "   ".data) = StartupResult.fatal ∧ "k".data ≠ [] :=
  ⟨C4_startup_guard.1 (some "   ".data) (by decide),
   C4_startup_guard.2.2 (some " k ".data) catalogueNames "k".data (by decide)⟩

theorem listFields_keys (a : ListFieldsRaw) :
    (List.map Prod.fst (listFields_params a)).Nodup := by
  have h : List.map Prod.fst (listFields_params a) =
      ["type".data, "farmId".data, "provider".data, "leafUserId".data,
       "page".data, "size".data] := rfl
  rw [h]
  decide

theorem listOperations_keys (a : ListOperationsRaw) :
    (List.map Prod.fst (listOperations_params a)).Nodup := by
  have h : List.map Prod.fst (listOperations_params a) =
      ["leafUserId".data, "provider".data, "startTime".data, "updatedTime".data,
       "endTime".data, "operationType".data, "fieldId".data, "page".data,
       "size".data, "sort".data] := rfl
  rw [h]
  decide

theorem listUsers_keys (a : ListUsersRaw) :
    (List.map Prod.fst (listUsers_params a)).Nodup := by
  have h : List.map Prod.fst (listUsers_params a) =
      ["email".data, "name".data, "externalId".data, "page".data, "size".data] := rfl
  rw [h]
  decide

theorem listFiles_keys (a : ListFilesRaw) :
    (List.map Prod.fst (listFiles_params a)).Nodup := by
  have h : List.map Prod.fst (listFiles_params a) =
      ["leafUserId".data, "provider".data, "status".data, "origin".data,
       "organizationId".data, "batchId".data, "createdTime".data, "startTime".data,
       "updatedTime".data, "endTime".data, "operationType".data, "minArea".data,
       "page".data, "size".data, "sort".data] := rfl
  rw [h]
  decide

/-- C5: for each of the four list-style tools and each of their optional
schema fields (enumerated, in schema order, by the tool's parameter list),
a field supplied as `none` contributes no query parameter under its key at
all, and a field supplied as `some w` contributes exactly the query pair
of its key and string value. -/
theorem C5_optional_params :
    (∀ (a : ListFieldsRaw), ∀ p ∈ listFields_params a,
      (p.2 = none → ∀ v, (p.1, v) ∉ listFields_query a) ∧
      (∀ w, p.2 = some w → (p.1, w) ∈ listFields_query a)) ∧
    (∀ (a : ListOperationsRaw), ∀ p ∈ listOperations_params a,
      (p.2 = none → ∀ v, (p.1, v) ∉ listOperations_query a) ∧
      (∀ w, p.2 = some w → (p.1, w) ∈ listOperations_query a)) ∧
    (∀ (a : ListUsersRaw), ∀ p ∈ listUsers_params a,
      (p.2 = none → ∀ v, (p.1, v) ∉ listUsers_query a) ∧
      (∀ w, p.2 = some w → (p.1, w) ∈ listUsers_query a)) ∧
    (∀ (a : ListFilesRaw), ∀ p ∈ listFiles_params a,
      (p.2 = none → ∀ v, (p.1, v) ∉ listFiles_query a) ∧
      (∀ w, p.2 = some w → (p.1, w) ∈ listFiles_query a)) := by
  exact ⟨fun a => queryKeyed (listFields_keys a), fun a => queryKeyed (listOperations_keys a),
    fun a => queryKeyed (listUsers_keys a), fun a => queryKeyed (listFiles_keys a)⟩

/-- C5 witness: with only `size` supplied, the built `listFields` query
contains the `size` pair and nothing under the omitted `page` key. -/
theorem C5_optional_params_witness :
    ("size".data, "10".data) ∈
      listFields_query ⟨none, none, none, none, none, some 10⟩ ∧
    ∀ v, ("page".data, v) ∉
      listFields_query ⟨none, none, none, none, none, some 10⟩ := by
  constructor
  · exact (C5_optional_params.1 ⟨none, none, none, none, none, some 10⟩
      ("size".data, some "10".data) (by decide)).2 "10".data rfl
  · intro v
    exact (C5_optional_params.1 ⟨none, none, none, none, none, some 10⟩
      ("page".data, none) (by decide)).1 rfl v

/-- C6: for each paginated tool, a supplied `page` that is negative or not
integral, or a supplied `size` that is not integral or outside 1..100,
makes dispatch fail with `invalidArgument` — the error constructor carries
no request, so no upstream call is ever built. -/
theorem C6_pagination_guard :
    (∀ (a : ListFieldsRaw) session env,
      (∀ q, a.size = some q → q.den ≠ 1 ∨ q < 1 ∨ 100 < q →
        listFields_dispatch a session env = Except.error DispatchError.invalidArgument) ∧
      (∀ q, a.page = some q → q.den ≠ 1 ∨ q < 0 →
        listFields_dispatch a session env = Except.error DispatchError.invalidArgument)) ∧
    (∀ (a : ListOperationsRaw) session env,
      (∀ q, a.size = some q → q.den ≠ 1 ∨ q < 1 ∨ 100 < q →
        listOperations_dispatch a session env = Except.error DispatchError.invalidArgument) ∧
      (∀ q, a.page = some q → q.den ≠ 1 ∨ q < 0 →
        listOperations_dispatch a session env = Except.error DispatchError.invalidArgument)) ∧
    (∀ (a : ListUsersRaw) session env,
      (∀ q, a.size = some q → q.den ≠ 1 ∨ q < 1 ∨ 100 < q →
        listUsers_dispatch a session env = Except.error DispatchError.invalidArgument) ∧
      (∀ q, a.page = some q → q.den ≠ 1 ∨ q < 0 →
        listUsers_dispatch a session env = Except.error DispatchError.invalidArgument)) ∧
    (∀ (a : ListFilesRaw) session env,
      (∀ q, a.size = some q → q.den ≠ 1 ∨ q < 1 ∨ 100 < q →
        listFiles_dispatch a session env = Except.error DispatchError.invalidArgument) ∧
      (∀ q, a.page = some q → q.den ≠ 1 ∨ q < 0 →
        listFiles_dispatch a session env = Except.error DispatchError.invalidArgument)) := by
  refine ⟨fun a session env => ⟨?_, ?_⟩, fun a session env => ⟨?_, ?_⟩,
    fun a session env => ⟨?_, ?_⟩, fun a session env => ⟨?_, ?_⟩⟩ <;>
    intro q hq hbad
  · simp [listFields_dispatch, listFields_check, hq, optOk, zSize_false hbad]
  · simp [listFields_dispatch, listFields_check, hq, optOk, zPage_false hbad]
  · simp [listOperations_dispatch, listOperations_check, hq, optOk, zSize_false hbad]
  · simp [listOperations_dispatch, listOperations_check, hq, optOk, zPage_false hbad]
  · simp [listUsers_dispatch, listUsers_check, hq, optOk, zSize_false hbad]
  · simp [listUsers_dispatch, listUsers_check, hq, optOk, zPage_false hbad]
  · simp [listFiles_dispatch, listFiles_check, hq, optOk, zSize_false hbad]
  · simp [listFiles_dispatch, listFiles_check, hq, optOk, zPage_false hbad]

/-- C6 witness: `listFields` with `size = 101` dispatches to
`invalidArgument`. -/
theorem C6_pagination_guard_witness :
    listFields_dispatch ⟨none, none, none, none, none, some 101⟩ none [] =
      Except.error DispatchError.invalidArgument :=
  (C6_pagination_guard.1 ⟨none, none, none, none, none, some 101⟩ none []).1
    101 rfl (Or.inr (Or.inr (by norm_num)))

/-- C7: both mutating tools send `Content-Type: application/json` with a
body that serializes the supplied JSON argument; an absent or `null` body
becomes exactly the empty-object text, never a missing body. -/
theorem C7_mutating_bodies :
    (∀ u body session env,
      (createField_request u body session env).method = "POST".data ∧
      (createField_request u body session env).contentType =
        some "application/json".data ∧
      (createField_request u body session env).body = some (bodyText body)) ∧
    (∀ u f body session env,
      (updateFieldBoundary_request u f body session env).method = "PUT".data ∧
      (updateFieldBoundary_request u f body session env).contentType =
        some "application/json".data ∧
      (updateFieldBoundary_request u f body session env).body = some (bodyText body)) ∧
    bodyText none = "\x7b\x7d".data ∧
    bodyText (some Json.null) = "\x7b\x7d".data ∧
    (∀ v, v ≠ Json.null → bodyText (some v) = ser v) := by
  refine ⟨fun u body session env => ⟨rfl, rfl, rfl⟩,
    fun u f body session env => ⟨rfl, rfl, rfl⟩, rfl, rfl, ?_⟩
  intro v hv
  cases v with
  | null => cases hv rfl
  | bool b => rfl
  | num p => rfl
  | str s => rfl
  | arr xs => rfl
  | obj ms => rfl

/-- C7 witness: the non-null body case applied at a concrete value. -/
theorem C7_mutating_bodies_witness :
    bodyText (some (Json.bool true)) = ser (Json.bool true) :=
  C7_mutating_bodies.2.2.2.2 (Json.bool true) (fun h => Json.noConfusion h)

/-- C8: the dispatch result of a completed upstream call is the normalised
response body regardless of the HTTP status — two responses with the same
body and any two statuses dispatch identically — while only a
transport-level failure surfaces as `upstreamUnreachable`. -/
theorem C8_status_passthrough :
    (∀ status body,
      completeRequest (Upstream.response status body) = Except.ok (normalizeL body)) ∧
    (∀ s₁ s₂ body, completeRequest (Upstream.response s₁ body) =
      completeRequest (Upstream.response s₂ body)) ∧
    completeRequest Upstream.netError = Except.error DispatchError.upstreamUnreachable :=
  ⟨fun _ _ => rfl, fun _ _ _ => rfl, rfl⟩

/-- C9: the names of the statically registered tools are pairwise distinct,
and every serving process carries exactly the fixed catalogue built at
startup (the embedding's catalogue is a constant — nothing mutates it
during serving). -/
theorem C9_catalogue_names :
    catalogueNames.Nodup ∧
    (∀ useHttp key cat env,
      startup useHttp key = StartupResult.running cat env → cat = catalogueNames) := by
  constructor
  · decide
  · intro useHttp key cat env h
    simp only [startup] at h
    split_ifs at h with hc
    simp only [StartupResult.running.injEq] at h
    exact h.1.symm

/-- C9 witness: the distinctness holds and the running catalogue of a
concrete startup is the fixed one. -/
theorem C9_catalogue_names_witness :
    catalogueNames.Nodup ∧ catalogueNames = catalogueNames :=
  ⟨C9_catalogue_names.1, C9_catalogue_names.2 true none catalogueNames (trimJs []) rfl⟩

/-- C10: the response normaliser is idempotent — a second pass over its own
output changes nothing, for every input string. -/
theorem C10_normalize_idempotent :
    ∀ s : String, normalize (normalize s) = normalize s :=
  normalize_idem

end LeafMCP
